import Mathlib

/-!
Verification of the `ppar` persistent rope-vector (`src/ppar.rs`, `src/lib.rs`).

The tree engine is embedded shallowly:

* `Node` mirrors the source's `enum Node<T>` (`M { weight, left, right }` /
  `Z { data }`).  Reference-counted handles (`Ref<Node<T>>`) are modelled
  transparently: in this pure embedding cloning a handle is sharing a value,
  and copy-on-write paths simply build new values.  Consequently invariant I5
  (persistence of previously observed handles) holds by construction: no
  operation can mutate an existing value.
* Machine `usize` arithmetic is modelled with `Nat`; none of the embedded
  quantities can overflow/underflow on the validated paths (comments mark the
  one spot where the source would underflow).
* `T: Clone` cloning is value copying, invisible in a pure embedding.
* The element size `mem::size_of::<T>()` is a compile-time constant of the
  source; it is passed explicitly as the `sz : Nat` parameter.
* Fallible reads that the source performs with a panicking index
  (`data[off]`) are modelled with `Option`; the single library error
  `Error::IndexFail(location, message)` is modelled by `Error.indexFail`
  (the two strings carry no logic).
* Floating point appears in the source only in `Rebalance::can_rebalance`
  (`(depth as f64) > n_leafs.log2() * 3`) and in the rebuild depth
  `(leafs.len() as f64).log2().ceil() as usize`.  Both are computations on
  integer inputs; they are embedded by their exact real-arithmetic value:
  the comparison as the integer-exact test `(max 1 n)³ < 2^depth`
  (for `n ≥ 1` real arithmetic gives `3·log₂ n < d ↔ n³ < 2^d`, and for
  `n = 0` the source's `log2` is `-∞` making the test true whenever the
  depth threshold already passed — `max 1 0 = 1` yields the same value),
  and the ceiling log as `Nat.clog 2`.
-/

namespace Ppar

/-- `crate::LEAF_CAP` (`src/lib.rs`): default leaf capacity in bytes. -/
def LEAF_CAP : Nat := 10 * 1024

/-- `crate::REBALANCE_THRESHOLD` (`src/lib.rs`): depth threshold for auto-rebalance. -/
def REBALANCE_THRESHOLD : Nat := 30

/-- `Error` (`src/lib.rs`): the only error variant is `IndexFail(String, String)`;
the strings (location prefix, message) carry no logic and are dropped. -/
inductive Error where
  | indexFail
deriving DecidableEq, Repr

/-- `fn max_leaf_items<T>(cap: usize) -> usize` (`src/ppar.rs`):
`(cap / s) + if cap % s == 0 { 0 } else { 1 }` with `s = size_of::<T>() = sz`. -/
def maxLeafItems (sz cap : Nat) : Nat :=
  cap / sz + (if cap % sz == 0 then 0 else 1)

/-- `enum Node<T>` (`src/ppar.rs`): internal node `M { weight, left, right }`
and leaf `Z { data }`.  `Ref<Node<T>>` handles are modelled transparently. -/
inductive Node (α : Type) where
  | M (weight : Nat) (left right : Node α)
  | Z (data : List α)
deriving DecidableEq, Repr

namespace Node

variable {α : Type}

/-- `Node::len`: `M => weight + right.len()`, `Z => data.len()`.
Note this trusts the stored weights; it equals the true element count
only on well-formed trees (`Node.wf`). -/
def len : Node α → Nat
  | .M weight _ right => weight + right.len
  | .Z data => data.length

/-- The logical element sequence of a subtree (the in-order leaf contents).
This is the abstraction function of the embedding. -/
def toList : Node α → List α
  | .M _ left right => left.toList ++ right.toList
  | .Z data => data

/-- The in-order list of leaf blocks of a subtree. -/
def leaves : Node α → List (List α)
  | .M _ left right => left.leaves ++ right.leaves
  | .Z data => [data]

/-- The in-order list of leaf nodes of a subtree (what the
`collect_leaf_nodes` stack loop accumulates). -/
def leafNodes : Node α → List (Node α)
  | .M _ left right => left.leafNodes ++ right.leafNodes
  | .Z data => [.Z data]

/-- Leaf data of a node.  Every use site corresponds to a source position
where a non-leaf is `unreachable!()` (`Node::cow`, `Node::pack`,
`From<Vector<T>> for Vec<T>`); `M` is mapped to `[]`. -/
def zdata : Node α → List α
  | .M _ _ _ => []
  | .Z data => data

/-- Structural invariant I2: every `M` stores `weight == left.count()`.
Bool-valued so that concrete instances can be checked by `decide`. -/
def wf : Node α → Bool
  | .M weight left right => weight == left.toList.length && left.wf && right.wf
  | .Z _ => true

/-- Size measure used only for termination of the stack loops. -/
def nsize : Node α → Nat
  | .M _ left right => left.nsize + right.nsize + 1
  | .Z _ => 1

/-- `Node::get` descent: `off < weight` goes left, otherwise right with
`off - weight`; at a leaf the source indexes `data[off]` (a panic when out
of range, hence `Option`). -/
def getIdx? : Node α → Nat → Option α
  | .M weight left right, off =>
    if off < weight then left.getIdx? off else right.getIdx? (off - weight)
  | .Z data, off => data[off]?

end Node

/-- `struct Rebalance` (`src/ppar.rs`): `n_leafs` is stored by the source as
an `f64` produced from the integer `r.len / max_leaf_items(r.leaf_cap)`;
the integer is kept here. -/
structure Rebalance where
  nLeafs : Nat
  autoRebalance : Bool
  leafCap : Nat
deriving DecidableEq, Repr

/-- `Rebalance::can_rebalance`: `false` below the depth threshold, else the
source tests `(depth as f64) > n_leafs.log2() * 3_f64`.  In exact real
arithmetic, for `n ≥ 1`, `3·log₂ n < depth ↔ n³ < 2^depth`; for `n = 0`
the source compares against `-∞` (true), and `max 1 0 = 1` gives `1 < 2^depth`,
also true whenever `REBALANCE_THRESHOLD ≤ depth`.  See
`rebalanceDoit_iff_logb` for the proved equivalence with the real-log form. -/
def canRebalance (rn : Rebalance) (depth : Nat) : Bool :=
  if depth < REBALANCE_THRESHOLD then false
  else if (max 1 rn.nLeafs) ^ 3 < 2 ^ depth then true
  else false

/-- The rebuild decision of `Node::auto_rebalance`:
`force || (rn.auto_rebalance == true) && rn.can_rebalance(depth)`. -/
def rebalanceDoit (force : Bool) (rn : Rebalance) (depth : Nat) : Bool :=
  force || (rn.autoRebalance && canRebalance rn depth)

namespace Node

variable {α : Type}

/-- The loop of `Node::collect_leaf_nodes` before packing: an explicit
right-sibling stack, accumulating leaf nodes in order.  `stack.pop()` of the
source's `Vec` is the head of this list (last pushed first). -/
def collectLoop : Node α → List (Node α) → List (Node α) → List (Node α)
  | .Z data, [], acc => acc ++ [.Z data]
  | .Z data, node :: stack, acc => collectLoop node stack (acc ++ [.Z data])
  | .M _ left right, stack, acc => collectLoop left (right :: stack) acc
termination_by node stack _ => node.nsize + (stack.map Node.nsize).sum
decreasing_by
  all_goals simp [Node.nsize]
  all_goals omega

/-- `Node::pack(&mut self, other, cap)`: fills `self` (here `last`) up to
`cap` from `other`; returns the mutated `last` together with the leftover
block when one remains (`Some` in the source). -/
def pack1 (cap : Nat) (last other : List α) : List α × Option (List α) :=
  let p :=
    if last.length < cap then
      let n := min (cap - last.length) other.length
      (last ++ other.take n, other.drop n)
    else (last, other)
  (p.1, if p.2.length > 0 then some p.2 else none)

/-- One iteration of the packing loop of `collect_leaf_nodes`: the
accumulator is kept reversed (`head` = the source's `packed_leafs.last_mut()`). -/
def packStep (cap : Nat) (acc : List (List α)) (leaf : Node α) : List (List α) :=
  match acc with
  | [] => [leaf.zdata]
  | last :: rest =>
    match pack1 cap last leaf.zdata with
    | (last2, some next) => next :: last2 :: rest
    | (last2, none) => last2 :: rest

/-- The packing pass of `collect_leaf_nodes` (the `if packed` branch). -/
def packLeaves (cap : Nat) (leafs : List (Node α)) : List (Node α) :=
  ((leafs.foldl (packStep cap) []).reverse).map Node.Z

/-- `Node::collect_leaf_nodes`.  The source returns the collected leaves in
order and the *caller* reverses before popping from the end; this embedding
returns the in-order list and `buildBottomsUp` consumes from the front,
which is the same traversal order. -/
def collectLeafNodes (sz : Nat) (root : Node α) (packed : Bool) (leafCap : Nat) :
    List (Node α) :=
  let leafs := collectLoop root [] []
  if packed then packLeaves (maxLeafItems sz leafCap) leafs else leafs

/-- `Node::build_bottoms_up(depth, leafs)`.  The source pops from the end of
a reversed `Vec`; here the in-order list is consumed from the front and the
unconsumed suffix is returned as the third component.  Match arms mirror the
source's in order; the `(_, 1)` and `(_, 2)` arms (reached only with
`depth ≥ 2`, and `(0, 2)` for the latter) forward to depth `1` in the
source and are inlined here; the `(0, n ≥ 3)` case would underflow
`depth - 1` in the source (a panic) and is unreachable from every call site
(`leafs.len() ≤ 2^depth` there); it is modelled as a no-op. -/
def buildBottomsUp : Nat → List (Node α) → Node α × Nat × List (Node α)
  | 0, [] => (.Z [], 0, [])
  | 0, [l] => (l, l.len, [])
  | 0, [l, r] => (.M l.len l r, l.len + r.len, [])
  | 0, l :: r :: s :: rest => (.Z [], 0, l :: r :: s :: rest)
  | 1, [] => (.Z [], 0, [])
  | 1, [l] => (l, l.len, [])
  | 1, l :: r :: rest => (.M l.len l r, l.len + r.len, rest)
  | _ + 2, [l] => (l, l.len, [])
  | _ + 2, [l, r] => (.M l.len l r, l.len + r.len, [])
  | d + 2, leafs =>
    match buildBottomsUp (d + 1) leafs with
    | (left, w, []) => (left, w, [])
    | (left, w, [r]) => (.M w left r, w + r.len, [])
    | (left, w, r :: r2 :: rest) =>
      match buildBottomsUp (d + 1) (r :: r2 :: rest) with
      | (right, m, rest2) => (.M w left right, w + m, rest2)

/-- `Node::auto_rebalance(node, depth, packed, force, rn)`: when the
decision fires, collect the leaves and rebuild at depth
`⌈log₂ |leafs|⌉ = Nat.clog 2 |leafs|`; the source's `Result` is always `Ok`. -/
def autoRebalance (sz : Nat) (node : Node α) (depth : Nat) (packed force : Bool)
    (rn : Rebalance) : Node α × Nat :=
  if rebalanceDoit force rn depth then
    let leafs := collectLeafNodes sz node packed rn.leafCap
    let d := Nat.clog 2 leafs.length
    ((buildBottomsUp d leafs).1, d)
  else (node, depth)

/-- `Node::split_insert(data, off, val)`: halve the buffer, insert into the
half the offset falls into (`Vec::insert` is the `take/drop` splice for an
in-range offset), and wrap in a fresh `M`.  The source sets `weight` to
`ld.len()` *after* a left-half insertion. -/
def splitInsert (data : List α) (off : Nat) (val : α) : Node α :=
  let m := data.length / 2
  let p : List α × List α :=
    match data.length with
    | 0 => ([], [])
    | 1 => (data, [])
    | _ => (data.take m, data.drop m)
  if off < p.1.length then
    .M (p.1.length + 1) (.Z (p.1.take off ++ val :: p.1.drop off)) (.Z p.2)
  else
    .M p.1.length (.Z p.1) (.Z (p.2.take (off - p.1.length) ++ val :: p.2.drop (off - p.1.length)))

/-- `Node::insert` (copy-on-write).  The source's match computes
`(node, depth)` and then offers it to `auto_rebalance(node, depth, false,
false, rn)`; the offer is replicated in each branch here.  The source's
`Result` is always `Ok` (no error is ever constructed on this path). -/
def insert (sz : Nat) (rn : Rebalance) : Node α → Nat → α → Node α × Nat
  | .M weight left right, off, val =>
    if off < weight then
      let q := insert sz rn left off val
      autoRebalance sz (.M (weight + 1) q.1 right) (q.2 + 1) false false rn
    else
      let q := insert sz rn right (off - weight) val
      autoRebalance sz (.M weight left q.1) (q.2 + 1) false false rn
  | .Z data, off, val =>
    if data.length < maxLeafItems sz rn.leafCap then
      autoRebalance sz (.Z (data.take off ++ val :: data.drop off)) 1 false false rn
    else
      autoRebalance sz (splitInsert data off val) 2 false false rn

/-- `Node::insert_mut` (in-place; `Ref::get_mut(..).unwrap()` succeeds under
the unique-ownership contract modelled here).  Note: unlike `Node::insert`,
the `M` arms return the child's depth *unchanged*, and no `auto_rebalance`
offer happens inside the recursion (only `Vector::insert_mut` offers once). -/
def insertMut (sz : Nat) (rn : Rebalance) : Node α → Nat → α → Node α × Nat
  | .M weight left right, off, val =>
    if off < weight then
      let q := insertMut sz rn left off val
      (.M (weight + 1) q.1 right, q.2)
    else
      let q := insertMut sz rn right (off - weight) val
      (.M weight left q.1, q.2)
  | .Z data, off, val =>
    if data.length < maxLeafItems sz rn.leafCap then
      (.Z (data.take off ++ val :: data.drop off), 1)
    else
      (splitInsert data off val, 2)

/-- `Node::update` (copy-on-write): rebuild the path, overwrite `data[off]`,
return the prior value (`data[off].clone()` panics out of range, hence
`Option`). -/
def update : Node α → Nat → α → Node α × Option α
  | .M weight left right, off, val =>
    if off < weight then
      let q := update left off val
      (.M weight q.1 right, q.2)
    else
      let q := update right (off - weight) val
      (.M weight left q.1, q.2)
  | .Z data, off, val => (.Z (data.set off val), data[off]?)

/-- `Node::update_mut`: same descent as `update`, overwriting in place. -/
def updateMut : Node α → Nat → α → Node α × Option α
  | .M weight left right, off, val =>
    if off < weight then
      let q := updateMut left off val
      (.M weight q.1 right, q.2)
    else
      let q := updateMut right (off - weight) val
      (.M weight left q.1, q.2)
  | .Z data, off, val => (.Z (data.set off val), data[off]?)

/-- `Node::remove` (copy-on-write): left descent decrements the weight;
the leaf arm rebuilds `data[..off] ++ data[off+1..]`. -/
def remove : Node α → Nat → Node α × Option α
  | .M weight left right, off =>
    if off < weight then
      let q := remove left off
      (.M (weight - 1) q.1 right, q.2)
    else
      let q := remove right (off - weight)
      (.M weight left q.1, q.2)
  | .Z data, off => (.Z (data.take off ++ data.drop (off + 1)), data[off]?)

/-- `Node::remove_mut`: the source decrements `weight` before recursing
left; `Vec::remove(off)` is the same splice as `Node::remove`'s leaf arm
(the capacity shrink `shrink_to_fit` has no logical effect). -/
def removeMut : Node α → Nat → Node α × Option α
  | .M weight left right, off =>
    if off < weight then
      let q := removeMut left off
      (.M (weight - 1) q.1 right, q.2)
    else
      let q := removeMut right (off - weight)
      (.M weight left q.1, q.2)
  | .Z data, off => (.Z (data.take off ++ data.drop (off + 1)), data[off]?)

/-- `Node::split_off(off, len)`: returns `(node, root, n)` — the tree that
stays, the tree that leaves, and the element count that leaves. -/
def splitOff : Node α → Nat → Nat → Node α × Node α × Nat
  | .M weight left right, off, len =>
    if off < weight then
      let q := splitOff left off weight
      (.M (weight - q.2.2) q.1 (.Z []), .M q.2.2 q.2.1 right, q.2.2 + (len - weight))
    else
      let q := splitOff right (off - weight) (len - weight)
      (.M weight left q.1, q.2.1, q.2.2)
  | .Z data, off, _ =>
    if off == 0 then (.Z [], .Z data, data.length)
    else (.Z (data.take off), .Z (data.drop off), (data.drop off).length)

end Node

/-- `slice.chunks(n)`: successive blocks of `n` elements, the last possibly
shorter.  `chunks(0)` panics in Rust and is unreachable (callers pass
`max_leaf_items ≥ 1`); it is modelled as `[]`. -/
def chunksOf {α : Type} : Nat → List α → List (List α)
  | _, [] => []
  | 0, _ :: _ => []
  | n + 1, x :: xs => (x :: xs).take (n + 1) :: chunksOf (n + 1) ((x :: xs).drop (n + 1))
termination_by _ l => l.length
decreasing_by simp; omega

/-- `struct Vector<T>` (`src/ppar.rs`): the facade
`(len, root, auto_rebalance, leaf_cap)`. -/
structure Vector (α : Type) where
  len : Nat
  root : Node α
  autoRebalance : Bool
  leafCap : Nat
deriving DecidableEq, Repr

namespace Vector

variable {α : Type}

/-- The logical sequence a vector holds. -/
def toList (v : Vector α) : List α := v.root.toList

/-- Invariants I1 (`length == root`'s element count) and I2 (every `M` has
`weight == left.count()`), together. -/
def Inv (v : Vector α) : Prop := v.root.wf = true ∧ v.len = v.toList.length

instance (v : Vector α) : Decidable v.Inv := by unfold Inv; infer_instance

/-- `Vector::new()`: an empty leaf at the root, auto-rebalance on,
default leaf capacity. -/
def new : Vector α := ⟨0, .Z [], true, LEAF_CAP⟩

/-- `impl Clone for Vector<T>`: copies `len`, shares the root handle,
copies the two configuration fields. -/
def clone (v : Vector α) : Vector α := ⟨v.len, v.root, v.autoRebalance, v.leafCap⟩

/-- `Rebalance::new`: `n_leafs = len / max_leaf_items(leaf_cap)`
(integer division, then cast to `f64` by the source). -/
def mkRebalance (sz : Nat) (v : Vector α) : Rebalance :=
  ⟨v.len / maxLeafItems sz v.leafCap, v.autoRebalance, v.leafCap⟩

/-- `Vector::from_slice(slice, leaf_node_size)`: chunk into leaves, reverse
into a pop-from-the-end stack (= consume this list from the front), build
bottom-up at depth `⌈log₂(#leafs)⌉` (`(len as f64).log2().ceil() as usize`,
which is `Nat.clog 2 len`, the cast of `-∞` for `len = 0` saturating to `0`). -/
def fromSlice (sz : Nat) (slice : List α) (leafNodeSize : Option Nat) : Vector α :=
  let n := maxLeafItems sz (leafNodeSize.getD LEAF_CAP)
  let leafs := (chunksOf n slice).map Node.Z
  let depth := Nat.clog 2 leafs.length
  ⟨slice.length, (Node.buildBottomsUp depth leafs).1, true, leafNodeSize.getD LEAF_CAP⟩

/-- `Vector::get(index)`: bounds-validated read; the payload is the leaf
read `self.root.get(index)` whose out-of-range panic is the inner `Option`. -/
def get (v : Vector α) (index : Nat) : Except Error (Option α) :=
  if index < v.len then .ok (v.root.getIdx? index) else .error .indexFail

/-- `Vector::insert(off, value)` (copy-on-write), in state-passing form:
the returned vector is the final `self`.  The source validates `off <= len`
*before* assigning the new root and bumping `len`. -/
def insert (sz : Nat) (v : Vector α) (off : Nat) (value : α) :
    Vector α × Except Error Unit :=
  if off ≤ v.len then
    let q := Node.insert sz (mkRebalance sz v) v.root off value
    ({ v with root := q.1, len := v.len + 1 }, .ok ())
  else (v, .error .indexFail)

/-- `Vector::insert_mut(off, value)`: in-place descent, then a single
`auto_rebalance` offer with the returned depth (`packed = false`,
`force = false`). -/
def insertMut (sz : Nat) (v : Vector α) (off : Nat) (value : α) :
    Vector α × Except Error Unit :=
  if off ≤ v.len then
    let rn := mkRebalance sz v
    let q := Node.insertMut sz rn v.root off value
    let r := Node.autoRebalance sz q.1 q.2 false false rn
    ({ v with root := r.1, len := v.len + 1 }, .ok ())
  else (v, .error .indexFail)

/-- `Vector::update(off, value)` (copy-on-write): returns the prior value. -/
def update (v : Vector α) (off : Nat) (value : α) :
    Vector α × Except Error (Option α) :=
  if off < v.len then
    let q := Node.update v.root off value
    ({ v with root := q.1 }, .ok q.2)
  else (v, .error .indexFail)

/-- `Vector::update_mut(off, value)`: in-place update. -/
def updateMut (v : Vector α) (off : Nat) (value : α) :
    Vector α × Except Error (Option α) :=
  if off < v.len then
    let q := Node.updateMut v.root off value
    ({ v with root := q.1 }, .ok q.2)
  else (v, .error .indexFail)

/-- `Vector::remove(off)` (copy-on-write): returns the removed value. -/
def remove (v : Vector α) (off : Nat) : Vector α × Except Error (Option α) :=
  if off < v.len then
    let q := Node.remove v.root off
    ({ v with root := q.1, len := v.len - 1 }, .ok q.2)
  else (v, .error .indexFail)

/-- `Vector::remove_mut(off)`: in-place removal. -/
def removeMut (v : Vector α) (off : Nat) : Vector α × Except Error (Option α) :=
  if off < v.len then
    let q := Node.removeMut v.root off
    ({ v with root := q.1, len := v.len - 1 }, .ok q.2)
  else (v, .error .indexFail)

/-- `Vector::split_off(off)`: `off > len` is an error; `off == len` returns
an empty vector leaving `self` untouched; otherwise the engine splits and
`self` keeps `(node, len - n)` while `(root, n)` is returned. -/
def splitOff (v : Vector α) (off : Nat) : Vector α × Except Error (Vector α) :=
  if off > v.len then (v, .error .indexFail)
  else if off == v.len then
    (v, .ok ⟨0, .Z [], v.autoRebalance, v.leafCap⟩)
  else
    let q := Node.splitOff v.root off v.len
    ({ v with root := q.1, len := v.len - q.2.2 },
     .ok ⟨q.2.2, q.2.1, v.autoRebalance, v.leafCap⟩)

/-- `impl From<Vector<T>> for Vec<T>`: linearise through
`collect_leaf_nodes(root, false, leaf_cap)` and concatenate the leaf blocks
(the non-leaf arm is `unreachable!()`). -/
def toVec (sz : Nat) (v : Vector α) : List α :=
  ((Node.collectLeafNodes sz v.root false v.leafCap).map Node.zdata).flatten

/-- `Vector::append(other)`: when the leaf capacities differ, `other` is
linearised and rebuilt with `self`'s capacity; then a fresh `M` with
`weight = self.len` joins the two roots. -/
def append (sz : Nat) (v other : Vector α) : Vector α :=
  let o :=
    if other.leafCap ≠ v.leafCap then fromSlice sz (toVec sz other) (some v.leafCap)
    else other
  { v with root := .M v.len v.root o.root, len := v.len + o.len }

/-- `Vector::rebalance(packed)`: a forced `auto_rebalance` offer
(`depth = 0`, `force = true`); the source's `Result` is always `Ok`. -/
def rebalance (sz : Nat) (v : Vector α) (packed : Bool) : Vector α :=
  let r := Node.autoRebalance sz v.root 0 packed true (mkRebalance sz v)
  ⟨v.len, r.1, v.autoRebalance, v.leafCap⟩

end Vector

/-! ## List helpers -/

/-- The source's splice `data[..off] ++ [val] ++ data[off..]` (also
`Vec::insert(off, val)`) agrees with the shadow-model insertion
`List.insertIdx` at every validated offset. -/
theorem insertIdx_eq_splice {α : Type} (a : α) :
    ∀ (off : Nat) (l : List α), off ≤ l.length →
      l.insertIdx off a = l.take off ++ a :: l.drop off
  | 0, l, _ => by simp
  | off + 1, [], h => by simp at h
  | off + 1, x :: xs, h => by
    have ih := insertIdx_eq_splice a off xs (by simpa using h)
    simp [List.insertIdx_succ_cons, ih]

theorem splice_length {α : Type} (a : α) (off : Nat) (l : List α) (h : off ≤ l.length) :
    (l.take off ++ a :: l.drop off).length = l.length + 1 := by
  simp; omega

theorem splice_append_left {α : Type} (a : α) (off : Nat) (l r : List α)
    (h : off ≤ l.length) :
    (l ++ r).take off ++ a :: (l ++ r).drop off = (l.take off ++ a :: l.drop off) ++ r := by
  rw [List.take_append_of_le_length h, List.drop_append_of_le_length h]
  simp

theorem splice_append_right {α : Type} (a : α) (off : Nat) (l r : List α)
    (h : l.length ≤ off) :
    (l ++ r).take off ++ a :: (l ++ r).drop off
      = l ++ (r.take (off - l.length) ++ a :: r.drop (off - l.length)) := by
  rw [List.take_append_eq_append_take, List.drop_append_eq_append_drop,
    List.take_of_length_le h, List.drop_of_length_le h]
  simp

namespace Node

variable {α : Type}

/-! ## Basic node lemmas -/

@[simp] theorem toList_M (w : Nat) (l r : Node α) :
    (Node.M w l r).toList = l.toList ++ r.toList := rfl

@[simp] theorem toList_Z (d : List α) : (Node.Z d).toList = d := rfl

@[simp] theorem len_M (w : Nat) (l r : Node α) : (Node.M w l r).len = w + r.len := rfl

@[simp] theorem len_Z (d : List α) : (Node.Z d).len = d.length := rfl

@[simp] theorem leaves_M (w : Nat) (l r : Node α) :
    (Node.M w l r).leaves = l.leaves ++ r.leaves := rfl

@[simp] theorem leaves_Z (d : List α) : (Node.Z d).leaves = [d] := rfl

@[simp] theorem leafNodes_M (w : Nat) (l r : Node α) :
    (Node.M w l r).leafNodes = l.leafNodes ++ r.leafNodes := rfl

@[simp] theorem leafNodes_Z (d : List α) : (Node.Z d).leafNodes = [.Z d] := rfl

@[simp] theorem zdata_Z (d : List α) : (Node.Z d).zdata = d := rfl

@[simp] theorem wf_Z (d : List α) : (Node.Z d).wf = true := rfl

theorem wf_M_iff {w : Nat} {l r : Node α} :
    (Node.M w l r).wf = true ↔ w = l.toList.length ∧ l.wf = true ∧ r.wf = true := by
  simp [Node.wf, Bool.and_eq_true, and_assoc]

theorem wf_M {w : Nat} {l r : Node α} (hw : w = l.toList.length)
    (hl : l.wf = true) (hr : r.wf = true) : (Node.M w l r).wf = true :=
  wf_M_iff.mpr ⟨hw, hl, hr⟩

/-- On a well-formed tree the weight-trusting `Node::len` is the true
element count. -/
theorem len_eq_length {n : Node α} (h : n.wf = true) : n.len = n.toList.length := by
  induction n with
  | M w l r _ ihr =>
    obtain ⟨hw, _, hr⟩ := wf_M_iff.mp h
    simp [hw, ihr hr]
  | Z d => rfl

theorem flatten_leaves (n : Node α) : n.leaves.flatten = n.toList := by
  induction n with
  | M w l r ihl ihr => simp [ihl, ihr]
  | Z d => simp

theorem leafNodes_map_zdata (n : Node α) : n.leafNodes.map zdata = n.leaves := by
  induction n with
  | M w l r ihl ihr => simp [ihl, ihr]
  | Z d => simp

theorem leafNodes_map_toList (n : Node α) : n.leafNodes.map toList = n.leaves := by
  induction n with
  | M w l r ihl ihr => simp [ihl, ihr]
  | Z d => simp

theorem leafNodes_mem_Z {n m : Node α} (h : m ∈ n.leafNodes) : ∃ d, m = .Z d := by
  induction n with
  | M w l r ihl ihr =>
    simp only [leafNodes_M, List.mem_append] at h
    rcases h with h | h
    · exact ihl h
    · exact ihr h
  | Z d =>
    simp only [leafNodes_Z, List.mem_singleton] at h
    exact ⟨d, h⟩

theorem leafNodes_mem_wf {n m : Node α} (h : m ∈ n.leafNodes) : m.wf = true := by
  obtain ⟨d, rfl⟩ := leafNodes_mem_Z h
  rfl

/-- `Node::get` reads the `i`-th element of the logical sequence on a
well-formed tree. -/
theorem getIdx?_eq {n : Node α} (h : n.wf = true) (i : Nat) :
    n.getIdx? i = n.toList[i]? := by
  induction n generalizing i with
  | M w l r ihl ihr =>
    obtain ⟨hw, hl, hr⟩ := wf_M_iff.mp h
    by_cases hlt : i < w
    · rw [getIdx?, if_pos hlt, ihl hl, toList_M,
        List.getElem?_append_left (by omega : i < l.toList.length)]
    · rw [getIdx?, if_neg hlt, ihr hr, toList_M, hw,
        List.getElem?_append_right (by omega : l.toList.length ≤ i)]
  | Z d => rfl

/-! ## collect_leaf_nodes -/

theorem collectLoop_eq (node : Node α) (stack acc : List (Node α)) :
    collectLoop node stack acc
      = acc ++ node.leafNodes ++ (stack.map leafNodes).flatten := by
  induction node, stack, acc using collectLoop.induct with
  | case1 d acc => simp [collectLoop]
  | case2 d n stack acc ih => rw [collectLoop, ih]; simp
  | case3 w l r stack acc ih => rw [collectLoop, ih]; simp

theorem collectLeafNodes_false (sz cap : Nat) (root : Node α) :
    collectLeafNodes sz root false cap = root.leafNodes := by
  simp [collectLeafNodes, collectLoop_eq]

/-! ## build_bottoms_up -/

/-- What one `build_bottoms_up` call at depth `d ≥ 1` does: it consumes the
first `min (2^d) |leafs|` leaves, builds a well-formed tree holding exactly
their concatenated contents (whose reported count is the true one), and
leaves the remaining suffix untouched. -/
theorem buildBottomsUp_spec :
    ∀ d : Nat, 1 ≤ d → ∀ leafs : List (Node α), (∀ m ∈ leafs, m.wf = true) →
      (buildBottomsUp d leafs).2.2 = leafs.drop (min (2 ^ d) leafs.length) ∧
      (buildBottomsUp d leafs).1.toList
        = ((leafs.take (min (2 ^ d) leafs.length)).map Node.toList).flatten ∧
      (buildBottomsUp d leafs).1.wf = true ∧
      (buildBottomsUp d leafs).2.1 = (buildBottomsUp d leafs).1.toList.length ∧
      (leafs ≠ [] →
        (buildBottomsUp d leafs).1.leafNodes
          = ((leafs.take (min (2 ^ d) leafs.length)).map Node.leafNodes).flatten) := by
  intro d
  induction d with
  | zero => omega
  | succ d ih =>
    intro _ leafs h
    match d, leafs with
    | 0, [] => simp [buildBottomsUp]
    | 0, [l] =>
      have hl := h l (by simp)
      simp [buildBottomsUp, len_eq_length hl, hl]
    | 0, l :: r :: rest =>
      have hl := h l (by simp)
      have hr := h r (by simp)
      have hmin : min (2 ^ 1) (l :: r :: rest).length = 2 := by
        simp only [List.length_cons, pow_one]
        omega
      simp only [buildBottomsUp, hmin]
      refine ⟨by simp, by simp, wf_M (len_eq_length hl) hl hr, ?_, by simp⟩
      simp [len_eq_length hl, len_eq_length hr]
    | d + 1, [] =>
      have IH := ih (by omega) [] (by simp)
      rcases hb : buildBottomsUp (d + 1) ([] : List (Node α)) with ⟨left, w, rest1⟩
      rw [hb] at IH
      have hrest : rest1 = [] := by simpa using IH.1
      subst hrest
      have hstep : buildBottomsUp (d + 1 + 1) ([] : List (Node α)) = (left, w, []) := by
        rw [buildBottomsUp, hb]
        all_goals intros
        all_goals contradiction
      rw [hstep]
      refine ⟨by simp, ?_, IH.2.2.1, ?_, by simp⟩
      · simpa using IH.2.1
      · simpa using IH.2.2.2.1
    | d + 1, [l] =>
      have hl := h l (by simp)
      have h1 : (1:Nat) ≤ 2 ^ (d + 1 + 1) := Nat.one_le_two_pow
      have hmin : min (2 ^ (d + 1 + 1)) 1 = 1 := by omega
      simp [buildBottomsUp, hmin, len_eq_length hl, hl]
    | d + 1, [l, r] =>
      have hl := h l (by simp)
      have hr := h r (by simp)
      have h2 : (2:Nat) ≤ 2 ^ (d + 1 + 1) := by
        have h0 : (2:Nat) ^ 1 ≤ 2 ^ (d + 1 + 1) := Nat.pow_le_pow_right (by omega) (by omega)
        simpa using h0
      have hmin : min (2 ^ (d + 1 + 1)) 2 = 2 := by omega
      simp only [buildBottomsUp]
      refine ⟨by simp [hmin], by simp [hmin], wf_M (len_eq_length hl) hl hr, ?_, by simp [hmin]⟩
      simp [len_eq_length hl, len_eq_length hr]
    | d + 1, l :: r :: s :: rest =>
      set leafs := l :: r :: s :: rest with hleafs
      have hpow : 2 ^ (d + 1 + 1) = 2 ^ (d + 1) + 2 ^ (d + 1) := by
        rw [pow_succ]; omega
      have hLlen : 3 ≤ leafs.length := by simp [hleafs]
      have IH1 := ih (by omega) leafs h
      rcases hb1 : buildBottomsUp (d + 1) leafs with ⟨left, w, rest1⟩
      rw [hb1] at IH1
      dsimp only at IH1
      obtain ⟨hrest1, htl1, hwf1, hcnt1, hlf1⟩ := IH1
      have hk1le : min (2 ^ (d + 1)) leafs.length ≤ leafs.length := Nat.min_le_right _ _
      rcases rest1 with _ | ⟨r1, rest2⟩
      · have hLle : leafs.length ≤ min (2 ^ (d + 1)) leafs.length := by
          have := congrArg List.length hrest1
          simp at this
          omega
        have hk1 : min (2 ^ (d + 1)) leafs.length = leafs.length := by omega
        have hk2 : min (2 ^ (d + 1 + 1)) leafs.length = leafs.length := by omega
        have hstep : buildBottomsUp (d + 1 + 1) leafs = (left, w, []) := by
          rw [hleafs, buildBottomsUp] <;>
            try (intros
                 rename_i hx
                 simp at hx)
          rw [← hleafs, hb1]
        rw [hstep]
        rw [hk1] at htl1 hlf1
        refine ⟨by simp [hk2, ← hrest1], by simpa [hk2] using htl1, hwf1, hcnt1, ?_⟩
        intro hne
        simpa [hk2] using hlf1 hne
      · have hlen1 : (r1 :: rest2).length = leafs.length - min (2 ^ (d + 1)) leafs.length := by
          rw [hrest1]
          simp
        simp only [List.length_cons] at hlen1
        have hk1 : min (2 ^ (d + 1)) leafs.length = 2 ^ (d + 1) := by omega
        have hk1lt : 2 ^ (d + 1) < leafs.length := by omega
        have hmemdrop : ∀ m ∈ r1 :: rest2, m ∈ leafs := by
          intro m hm
          rw [hrest1] at hm
          exact List.mem_of_mem_drop hm
        have hsplit : leafs.take (2 ^ (d + 1)) ++ (r1 :: rest2) = leafs := by
          rw [hrest1, hk1]
          exact List.take_append_drop _ _
        rw [hk1] at htl1 hlf1 hrest1
        rcases rest2 with _ | ⟨r2, rest3⟩
        · have hr1wf : r1.wf = true := h r1 (hmemdrop r1 (by simp))
          simp only [List.length_nil] at hlen1
          have hL : leafs.length = 2 ^ (d + 1) + 1 := by omega
          have hkk : min (2 ^ (d + 1 + 1)) leafs.length = leafs.length := by omega
          have hstep : buildBottomsUp (d + 1 + 1) leafs = (.M w left r1, w + r1.len, []) := by
            rw [hleafs, buildBottomsUp] <;>
              try (intros
                   rename_i hx
                   simp at hx)
            rw [← hleafs, hb1]
          rw [hstep]
          have htake : leafs.take leafs.length = leafs := by simp
          have hall : (leafs.map Node.toList).flatten = left.toList ++ r1.toList := by
            conv_lhs => rw [← hsplit]
            simp [htl1]
          have halln : (leafs.map Node.leafNodes).flatten
              = left.leafNodes ++ r1.leafNodes := by
            conv_lhs => rw [← hsplit]
            simp [hlf1 (by simp [hleafs])]
          have hwcnt : w = left.toList.length := hcnt1
          refine ⟨by simp [hkk], ?_, wf_M (by omega) hwf1 hr1wf, ?_, ?_⟩
          · simp [hkk, htake, hall]
          · simp [hcnt1, len_eq_length hr1wf]
          · intro _
            simp [hkk, htake, halln]
        · have hwf2 : ∀ m ∈ r1 :: r2 :: rest3, m.wf = true :=
            fun m hm => h m (hmemdrop m hm)
          have IH2 := ih (by omega) (r1 :: r2 :: rest3) hwf2
          rcases hb2 : buildBottomsUp (d + 1) (r1 :: r2 :: rest3) with ⟨right, m2, rest4⟩
          rw [hb2] at IH2
          dsimp only at IH2
          obtain ⟨hrest4, htl2, hwfr, hcnt2, hlf2⟩ := IH2
          have hstep : buildBottomsUp (d + 1 + 1) leafs
              = (.M w left right, w + m2, rest4) := by
            rw [hleafs, buildBottomsUp] <;>
              try (intros
                   rename_i hx
                   simp at hx)
            rw [← hleafs]
            simp only [hb1, hb2]
          rw [hstep]
          set L2 := (r1 :: r2 :: rest3).length with hL2
          have hL2eq : L2 = leafs.length - 2 ^ (d + 1) := by
            rw [hL2, hrest1]
            simp
          set k2 := min (2 ^ (d + 1)) L2 with hk2def
          have hk2le : k2 ≤ L2 := Nat.min_le_right _ _
          have hkk : min (2 ^ (d + 1 + 1)) leafs.length = 2 ^ (d + 1) + k2 := by omega
          have hdrop2 : (r1 :: r2 :: rest3) = leafs.drop (2 ^ (d + 1)) := hrest1
          have hrest4' : rest4 = leafs.drop (2 ^ (d + 1) + k2) := by
            rw [hrest4, hdrop2, List.drop_drop]
          have htake2 : leafs.take (2 ^ (d + 1) + k2)
              = leafs.take (2 ^ (d + 1)) ++ (r1 :: r2 :: rest3).take k2 := by
            rw [hdrop2]
            exact List.take_add _ _ _
          refine ⟨?_, ?_, wf_M (by omega) hwf1 hwfr, ?_, ?_⟩
          · rw [hkk, hrest4']
          · rw [hkk, htake2]
            simp [htl1, htl2]
          · simp [hcnt1, hcnt2]
          · intro _
            rw [hkk, htake2]
            simp only [toList_M, leafNodes_M, List.map_append, List.flatten_append]
            rw [hlf1 (by simp [hleafs]), hlf2 (by simp)]

/-- `build_bottoms_up` at the depth every caller computes,
`⌈log₂ |leafs|⌉ = Nat.clog 2 |leafs|`, consumes all leaves: the built tree
holds exactly their concatenated contents, is well-formed, and (for a
nonempty input) has exactly the given leaves. -/
theorem buildBottomsUp_clog (leafs : List (Node α)) (h : ∀ m ∈ leafs, m.wf = true) :
    (buildBottomsUp (Nat.clog 2 leafs.length) leafs).1.toList
      = (leafs.map Node.toList).flatten ∧
    (buildBottomsUp (Nat.clog 2 leafs.length) leafs).1.wf = true ∧
    (leafs ≠ [] →
      (buildBottomsUp (Nat.clog 2 leafs.length) leafs).1.leafNodes
        = (leafs.map Node.leafNodes).flatten) := by
  match leafs with
  | [] => simp [buildBottomsUp]
  | [l] =>
    have hl := h l (by simp)
    simp [Nat.clog_one_right, buildBottomsUp, hl]
  | l :: r :: rest =>
    set L := (l :: r :: rest).length with hL
    have hLge : 2 ≤ L := by simp [hL]
    have hd : 1 ≤ Nat.clog 2 L := Nat.clog_pos (by omega) hLge
    have hle : L ≤ 2 ^ Nat.clog 2 L := Nat.le_pow_clog (by omega) L
    have hmin : min (2 ^ Nat.clog 2 L) L = L := by omega
    obtain ⟨_, htl, hwf, _, hlf⟩ :=
      buildBottomsUp_spec (Nat.clog 2 L) hd (l :: r :: rest) h
    rw [hmin] at htl hlf
    refine ⟨?_, hwf, ?_⟩
    · rw [htl, hL, List.take_length]
    · intro hne
      rw [hlf hne, hL, List.take_length]

/-! ## Packing -/

/-- `Node::pack` splits `last ++ other` into the filled block and the
leftover (`none` when nothing is left over). -/
theorem pack1_concat (cap : Nat) (last other : List α) :
    (pack1 cap last other).1 ++ ((pack1 cap last other).2.getD []) = last ++ other := by
  rcases Nat.lt_or_ge last.length cap with hlt | hge
  · simp only [pack1, if_pos hlt]
    split_ifs with h2
    · simp only [Option.getD_some]
      rw [List.append_assoc, List.take_append_drop]
    · simp only [List.length_drop, gt_iff_lt, not_lt, Nat.le_zero] at h2
      rw [List.take_of_length_le (by omega)]
      simp
  · simp only [pack1, if_neg (Nat.not_lt.mpr hge)]
    split_ifs with h2
    · simp
    · simp only [gt_iff_lt, not_lt, Nat.le_zero] at h2
      have : other = [] := List.eq_nil_of_length_eq_zero h2
      simp [this]

theorem packStep_ne_nil (cap : Nat) (acc : List (List α)) (leaf : Node α) :
    packStep cap acc leaf ≠ [] := by
  rcases acc with _ | ⟨last, rest⟩
  · simp [packStep]
  · rcases hp : pack1 cap last leaf.zdata with ⟨last2, _ | nxt⟩ <;>
      simp [packStep, hp]

theorem packFoldl_flatten (cap : Nat) :
    ∀ (leafs : List (Node α)) (acc : List (List α)),
      ((leafs.foldl (packStep cap) acc).reverse).flatten
        = acc.reverse.flatten ++ (leafs.map Node.zdata).flatten := by
  intro leafs
  induction leafs with
  | nil => simp
  | cons leaf rest ih =>
    intro acc
    rw [List.foldl_cons, ih]
    have hstep : (packStep cap acc leaf).reverse.flatten
        = acc.reverse.flatten ++ leaf.zdata := by
      rcases acc with _ | ⟨last, racc⟩
      · simp [packStep]
      · have hc := pack1_concat cap last leaf.zdata
        rcases hp : pack1 cap last leaf.zdata with ⟨last2, lo⟩
        rw [hp] at hc
        rcases lo with _ | nxt
        · simp only [Option.getD_none, List.append_nil] at hc
          simp [packStep, hp, hc]
        · simp only [Option.getD_some] at hc
          simp [packStep, hp, ← hc]
    rw [hstep]
    simp

theorem packFoldl_ne_nil (cap : Nat) :
    ∀ (leafs : List (Node α)) (acc : List (List α)),
      (acc = [] → leafs ≠ []) → leafs.foldl (packStep cap) acc ≠ [] := by
  intro leafs
  induction leafs with
  | nil =>
    intro acc hacc
    simpa using fun he => (hacc he) rfl
  | cons leaf rest ih =>
    intro acc _
    rw [List.foldl_cons]
    exact ih (packStep cap acc leaf) (fun he => absurd he (packStep_ne_nil cap acc leaf))

theorem packLeaves_flatten (cap : Nat) (leafs : List (Node α)) :
    ((packLeaves cap leafs).map Node.toList).flatten = (leafs.map Node.zdata).flatten := by
  unfold packLeaves
  rw [List.map_map]
  have hcomp : Node.toList ∘ Node.Z = id (α := List α) := by
    funext d
    rfl
  rw [hcomp, List.map_id]
  simpa using packFoldl_flatten cap leafs []

theorem packLeaves_wf (cap : Nat) (leafs : List (Node α)) :
    ∀ m ∈ packLeaves cap leafs, m.wf = true := by
  intro m hm
  unfold packLeaves at hm
  obtain ⟨d, _, rfl⟩ := List.mem_map.mp hm
  rfl

theorem packLeaves_ne_nil (cap : Nat) (leafs : List (Node α)) (h : leafs ≠ []) :
    packLeaves cap leafs ≠ [] := by
  unfold packLeaves
  have := packFoldl_ne_nil cap leafs [] (fun _ => h)
  simpa using this

theorem leafNodes_ne_nil (n : Node α) : n.leafNodes ≠ [] := by
  induction n with
  | M w l r ihl _ =>
    simp only [leafNodes_M, ne_eq, List.append_eq_nil]
    intro hc
    exact ihl hc.1
  | Z d => simp

/-- `collect_leaf_nodes` (packed or not) yields a nonempty list of
well-formed leaf nodes whose concatenated contents are the tree's sequence. -/
theorem collectLeafNodes_spec (sz cap : Nat) (packed : Bool) (root : Node α) :
    ((collectLeafNodes sz root packed cap).map Node.toList).flatten = root.toList ∧
    (∀ m ∈ collectLeafNodes sz root packed cap, m.wf = true) ∧
    collectLeafNodes sz root packed cap ≠ [] := by
  rcases packed with _ | _
  · rw [collectLeafNodes_false]
    exact ⟨by rw [leafNodes_map_toList, flatten_leaves],
      fun m hm => leafNodes_mem_wf hm, leafNodes_ne_nil root⟩
  · have hcl : collectLeafNodes sz root true cap
        = packLeaves (maxLeafItems sz cap) root.leafNodes := by
      simp [collectLeafNodes, collectLoop_eq]
    rw [hcl]
    refine ⟨?_, packLeaves_wf _ _, packLeaves_ne_nil _ _ (leafNodes_ne_nil root)⟩
    rw [packLeaves_flatten, leafNodes_map_zdata, flatten_leaves]

/-! ## auto_rebalance -/

/-- `auto_rebalance` never changes the logical sequence and preserves
well-formedness (a rebuilt tree is well-formed outright). -/
theorem autoRebalance_spec (sz : Nat) (node : Node α) (depth : Nat)
    (packed force : Bool) (rn : Rebalance) :
    (autoRebalance sz node depth packed force rn).1.toList = node.toList ∧
    (node.wf = true → (autoRebalance sz node depth packed force rn).1.wf = true) := by
  unfold autoRebalance
  split
  · obtain ⟨htl, hwfm, _⟩ := collectLeafNodes_spec sz rn.leafCap packed node
    obtain ⟨htl2, hwf2, _⟩ :=
      buildBottomsUp_clog (collectLeafNodes sz node packed rn.leafCap) hwfm
    exact ⟨by rw [htl2, htl], fun _ => hwf2⟩
  · exact ⟨rfl, fun h => h⟩

/-! ## insert -/

/-- `split_insert` realises the splice at the leaf: the fresh two-leaf `M`
holds `data[..off] ++ [val] ++ data[off..]` and is well-formed. -/
theorem splitInsert_spec (data : List α) (off : Nat) (val : α) (h : off ≤ data.length) :
    (splitInsert data off val).toList = data.take off ++ val :: data.drop off ∧
    (splitInsert data off val).wf = true := by
  rcases data with _ | ⟨a, _ | ⟨b, t⟩⟩
  · have hoff : off = 0 := by simpa using h
    subst hoff
    constructor
    · simp [splitInsert]
    · simp [splitInsert, wf]
  · have hoff : off = 0 ∨ off = 1 := by simp at h; omega
    rcases hoff with rfl | rfl
    · constructor
      · simp [splitInsert]
      · simp [splitInsert, wf]
    · constructor
      · simp [splitInsert]
      · simp [splitInsert, wf]
  · set data := a :: b :: t with hdata
    have hred : splitInsert data off val =
        (if off < (data.take (data.length / 2)).length then
          Node.M ((data.take (data.length / 2)).length + 1)
            (.Z ((data.take (data.length / 2)).take off
                  ++ val :: (data.take (data.length / 2)).drop off))
            (.Z (data.drop (data.length / 2)))
        else
          Node.M (data.take (data.length / 2)).length
            (.Z (data.take (data.length / 2)))
            (.Z ((data.drop (data.length / 2)).take
                    (off - (data.take (data.length / 2)).length)
                  ++ val :: (data.drop (data.length / 2)).drop
                    (off - (data.take (data.length / 2)).length)))) := by
      rw [hdata]
      rfl
    have hm : (data.take (data.length / 2)).length = data.length / 2 := by
      rw [List.length_take]
      have : data.length / 2 ≤ data.length := Nat.div_le_self _ _
      omega
    have hsplit := List.take_append_drop (data.length / 2) data
    by_cases hlt : off < (data.take (data.length / 2)).length
    · rw [hred, if_pos hlt]
      constructor
      · conv_rhs => rw [← hsplit]
        rw [toList_M, toList_Z, toList_Z,
          splice_append_left val off _ _ (by omega)]
      · rw [wf_M_iff]
        refine ⟨?_, rfl, rfl⟩
        rw [toList_Z, splice_length val off _ (by omega)]
    · rw [hred, if_neg hlt]
      constructor
      · conv_rhs => rw [← hsplit]
        rw [toList_M, toList_Z, toList_Z,
          splice_append_right val off _ _ (by omega)]
      · exact wf_M (by rw [toList_Z]) rfl rfl

/-- `Node::insert` (CoW) inserts the value at the validated offset into the
logical sequence and keeps the tree well-formed (auto-rebalance offers
included). -/
theorem insert_spec (sz : Nat) (rn : Rebalance) (n : Node α) (hwf : n.wf = true) :
    ∀ (off : Nat) (val : α), off ≤ n.toList.length →
      (insert sz rn n off val).1.toList = n.toList.take off ++ val :: n.toList.drop off ∧
      (insert sz rn n off val).1.wf = true := by
  induction n with
  | M w l r ihl ihr =>
    intro off val hoff
    obtain ⟨hw, hl, hr⟩ := wf_M_iff.mp hwf
    rw [toList_M, List.length_append] at hoff
    by_cases hlt : off < w
    · obtain ⟨htl, hwf2⟩ := ihl hl off val (by omega)
      rw [insert]
      simp only [if_pos hlt]
      obtain ⟨harb, harbwf⟩ := autoRebalance_spec sz
        (.M (w + 1) (insert sz rn l off val).1 r)
        ((insert sz rn l off val).2 + 1) false false rn
      refine ⟨?_, harbwf (wf_M ?_ hwf2 hr)⟩
      · rw [harb]
        simp only [toList_M, htl]
        rw [splice_append_left val off l.toList r.toList (by omega)]
      · rw [htl, splice_length val off _ (by omega)]
        omega
    · obtain ⟨htl, hwf2⟩ := ihr hr (off - w) val (by omega)
      rw [insert]
      simp only [if_neg hlt]
      obtain ⟨harb, harbwf⟩ := autoRebalance_spec sz
        (.M w l (insert sz rn r (off - w) val).1)
        ((insert sz rn r (off - w) val).2 + 1) false false rn
      refine ⟨?_, harbwf (wf_M hw hl hwf2)⟩
      rw [harb]
      simp only [toList_M, htl]
      rw [splice_append_right val off l.toList r.toList (by omega), ← hw]
  | Z data =>
    intro off val hoff
    rw [toList_Z] at hoff
    rw [insert]
    by_cases hfit : data.length < maxLeafItems sz rn.leafCap
    · simp only [if_pos hfit]
      obtain ⟨harb, harbwf⟩ := autoRebalance_spec sz
        (Node.Z (data.take off ++ val :: data.drop off)) 1 false false rn
      refine ⟨?_, harbwf rfl⟩
      rw [harb]
      simp only [toList_Z]
    · simp only [if_neg hfit]
      obtain ⟨hsi, hsiwf⟩ := splitInsert_spec data off val hoff
      obtain ⟨harb, harbwf⟩ := autoRebalance_spec sz
        (splitInsert data off val) 2 false false rn
      refine ⟨?_, harbwf hsiwf⟩
      rw [harb, hsi]
      simp only [toList_Z]

/-- `Node::insert_mut` performs the same splice in place. -/
theorem insertMut_spec (sz : Nat) (rn : Rebalance) (n : Node α) (hwf : n.wf = true) :
    ∀ (off : Nat) (val : α), off ≤ n.toList.length →
      (insertMut sz rn n off val).1.toList
        = n.toList.take off ++ val :: n.toList.drop off ∧
      (insertMut sz rn n off val).1.wf = true := by
  induction n with
  | M w l r ihl ihr =>
    intro off val hoff
    obtain ⟨hw, hl, hr⟩ := wf_M_iff.mp hwf
    rw [toList_M, List.length_append] at hoff
    by_cases hlt : off < w
    · obtain ⟨htl, hwf2⟩ := ihl hl off val (by omega)
      rw [insertMut]
      simp only [if_pos hlt]
      refine ⟨?_, wf_M ?_ hwf2 hr⟩
      · simp only [toList_M, htl]
        rw [splice_append_left val off l.toList r.toList (by omega)]
      · rw [htl, splice_length val off _ (by omega)]
        omega
    · obtain ⟨htl, hwf2⟩ := ihr hr (off - w) val (by omega)
      rw [insertMut]
      simp only [if_neg hlt]
      refine ⟨?_, wf_M hw hl hwf2⟩
      simp only [toList_M, htl]
      rw [splice_append_right val off l.toList r.toList (by omega), ← hw]
  | Z data =>
    intro off val hoff
    rw [toList_Z] at hoff
    rw [insertMut]
    by_cases hfit : data.length < maxLeafItems sz rn.leafCap
    · simp only [if_pos hfit]
      exact ⟨rfl, rfl⟩
    · simp only [if_neg hfit]
      exact splitInsert_spec data off val hoff

/-- The depth counter returned by `Node::insert_mut` is always the leaf's
own contribution — `1` for a plain leaf insert, `2` for a split-insert —
because (unlike `Node::insert`) the `M` arms pass the child's depth through
unchanged. -/
theorem insertMut_depth (sz : Nat) (rn : Rebalance) (n : Node α) (off : Nat) (val : α) :
    (insertMut sz rn n off val).2 = 1 ∨ (insertMut sz rn n off val).2 = 2 := by
  induction n generalizing off with
  | M w l r ihl ihr =>
    rw [insertMut]
    by_cases hlt : off < w
    · simpa only [if_pos hlt] using ihl off
    · simpa only [if_neg hlt] using ihr (off - w)
  | Z data =>
    rw [insertMut]
    by_cases hfit : data.length < maxLeafItems sz rn.leafCap
    · simp [if_pos hfit]
    · simp [if_neg hfit]

/-! ## update / remove -/

/-- `Node::update` overwrites the element at the validated offset, returns
the prior value, and preserves shape and weights. -/
theorem update_spec (n : Node α) (hwf : n.wf = true) :
    ∀ (off : Nat) (val : α), off < n.toList.length →
      (update n off val).1.toList = n.toList.set off val ∧
      (update n off val).1.wf = true ∧
      (update n off val).2 = n.toList[off]? := by
  induction n with
  | M w l r ihl ihr =>
    intro off val hoff
    obtain ⟨hw, hl, hr⟩ := wf_M_iff.mp hwf
    rw [toList_M, List.length_append] at hoff
    by_cases hlt : off < w
    · obtain ⟨htl, hwf2, hold⟩ := ihl hl off val (by omega)
      rw [update]
      simp only [if_pos hlt, toList_M]
      refine ⟨?_, wf_M (by rw [htl]; simp [hw]) hwf2 hr, ?_⟩
      · rw [htl, List.set_append_left _ _ (by omega)]
      · rw [hold, List.getElem?_append_left (by omega)]
    · obtain ⟨htl, hwf2, hold⟩ := ihr hr (off - w) val (by omega)
      rw [update]
      simp only [if_neg hlt, toList_M]
      refine ⟨?_, wf_M hw hl hwf2, ?_⟩
      · rw [htl, hw, List.set_append_right _ _ (by omega)]
      · rw [hold, hw, List.getElem?_append_right (by omega)]
  | Z data =>
    intro off val hoff
    rw [update]
    exact ⟨rfl, rfl, rfl⟩

/-- `Node::update_mut` computes exactly the same tree and prior value as
the copy-on-write `Node::update` (the two differ only in allocation). -/
theorem updateMut_eq_update (n : Node α) (off : Nat) (val : α) :
    updateMut n off val = update n off val := by
  induction n generalizing off with
  | M w l r ihl ihr =>
    rw [updateMut, update]
    by_cases hlt : off < w
    · simp only [if_pos hlt, ihl]
    · simp only [if_neg hlt, ihr]
  | Z data => rfl

/-- `Node::remove` deletes the element at the validated offset
(`data[..off] ++ data[off+1..]`), returns it, and preserves weights. -/
theorem remove_spec (n : Node α) (hwf : n.wf = true) :
    ∀ off : Nat, off < n.toList.length →
      (remove n off).1.toList = n.toList.take off ++ n.toList.drop (off + 1) ∧
      (remove n off).1.wf = true ∧
      (remove n off).2 = n.toList[off]? := by
  induction n with
  | M w l r ihl ihr =>
    intro off hoff
    obtain ⟨hw, hl, hr⟩ := wf_M_iff.mp hwf
    rw [toList_M, List.length_append] at hoff
    by_cases hlt : off < w
    · obtain ⟨htl, hwf2, hold⟩ := ihl hl off (by omega)
      rw [remove]
      simp only [if_pos hlt, toList_M]
      refine ⟨?_, wf_M ?_ hwf2 hr, ?_⟩
      · rw [htl, List.take_append_of_le_length (by omega : off ≤ l.toList.length),
          List.drop_append_of_le_length (by omega : off + 1 ≤ l.toList.length)]
        simp [List.append_assoc]
      · rw [htl]
        simp only [List.length_append, List.length_take, List.length_drop]
        omega
      · rw [hold, List.getElem?_append_left (by omega)]
    · obtain ⟨htl, hwf2, hold⟩ := ihr hr (off - w) (by omega)
      rw [remove]
      simp only [if_neg hlt, toList_M]
      refine ⟨?_, wf_M hw hl hwf2, ?_⟩
      · rw [htl, List.take_append_eq_append_take, List.drop_append_eq_append_drop,
          List.take_of_length_le (by omega : l.toList.length ≤ off),
          List.drop_of_length_le (by omega : l.toList.length ≤ off + 1), ← hw]
        have hoo : off + 1 - w = off - w + 1 := by omega
        simp [hoo]
      · rw [hold, hw, List.getElem?_append_right (by omega)]
  | Z data =>
    intro off hoff
    rw [remove]
    exact ⟨rfl, rfl, rfl⟩

/-- `Node::remove_mut` computes exactly the same tree and removed value as
the copy-on-write `Node::remove`. -/
theorem removeMut_eq_remove (n : Node α) (off : Nat) :
    removeMut n off = remove n off := by
  induction n generalizing off with
  | M w l r ihl ihr =>
    rw [removeMut, remove]
    by_cases hlt : off < w
    · simp only [if_pos hlt, ihl]
    · simp only [if_neg hlt, ihr]
  | Z data => rfl

/-! ## split_off -/

/-- `Node::split_off(off, len)` (with the true `len` passed in, as every
call site does): the kept tree holds `[0, off)`, the returned tree holds
`[off, len)`, the reported count is `len - off`, and both trees are
well-formed. -/
theorem splitOff_spec (n : Node α) (hwf : n.wf = true) :
    ∀ (off len : Nat), len = n.toList.length → off < len →
      (splitOff n off len).1.toList = n.toList.take off ∧
      (splitOff n off len).2.1.toList = n.toList.drop off ∧
      (splitOff n off len).2.2 = len - off ∧
      (splitOff n off len).1.wf = true ∧
      (splitOff n off len).2.1.wf = true := by
  induction n with
  | M w l r ihl ihr =>
    intro off len hlen hoff
    obtain ⟨hw, hl, hr⟩ := wf_M_iff.mp hwf
    rw [toList_M, List.length_append] at hlen
    by_cases hlt : off < w
    · obtain ⟨h1, h2, h3, h4, h5⟩ := ihl hl off w hw (by omega)
      rw [splitOff]
      simp only [if_pos hlt, toList_M]
      refine ⟨?_, ?_, by omega, ?_, ?_⟩
      · rw [h1, List.take_append_of_le_length (by omega : off ≤ l.toList.length)]
        simp
      · rw [h2, List.drop_append_of_le_length (by omega : off ≤ l.toList.length)]
      · refine wf_M ?_ h4 rfl
        rw [h1]
        simp only [List.length_take]
        omega
      · refine wf_M ?_ h5 hr
        rw [h2]
        simp only [List.length_drop]
        omega
    · obtain ⟨h1, h2, h3, h4, h5⟩ := ihr hr (off - w) (len - w) (by omega) (by omega)
      rw [splitOff]
      simp only [if_neg hlt, toList_M]
      refine ⟨?_, ?_, by omega, wf_M hw hl h4, h5⟩
      · rw [h1, List.take_append_eq_append_take,
          List.take_of_length_le (by omega : l.toList.length ≤ off), ← hw]
      · rw [h2, List.drop_append_eq_append_drop,
          List.drop_of_length_le (by omega : l.toList.length ≤ off), ← hw]
        simp
  | Z data =>
    intro off len hlen hoff
    rw [toList_Z] at hlen
    rw [splitOff]
    by_cases h0 : off = 0
    · subst h0
      simp only [beq_self_eq_true, if_pos]
      refine ⟨by simp, by simp, by omega, rfl, rfl⟩
    · rw [if_neg (by simpa using h0)]
      refine ⟨rfl, rfl, ?_, rfl, rfl⟩
      simp only [toList_Z, List.length_drop]
      omega

end Node

/-! ## Facade-level lemmas -/

theorem maxLeafItems_pos {sz cap : Nat} (hsz : 1 ≤ sz) (hcap : 1 ≤ cap) :
    1 ≤ maxLeafItems sz cap := by
  unfold maxLeafItems
  by_cases h : cap % sz = 0
  · have hdvd : sz ∣ cap := Nat.dvd_of_mod_eq_zero h
    have : sz ≤ cap := Nat.le_of_dvd (by omega) hdvd
    have : 1 ≤ cap / sz := (Nat.one_le_div_iff (by omega)).mpr this
    simp [h]
    omega
  · simp [h]

theorem chunksOf_flatten {α : Type} (n : Nat) (l : List α) (hn : 1 ≤ n) :
    (chunksOf n l).flatten = l := by
  induction n, l using chunksOf.induct with
  | case1 n => simp [chunksOf]
  | case2 _ _ => omega
  | case3 n x xs ih =>
    rw [chunksOf, List.flatten_cons, ih (by omega), List.take_append_drop]

namespace Vector

variable {α : Type}

@[simp] theorem toList_mk (len : Nat) (root : Node α) (ar : Bool) (lc : Nat) :
    (Vector.mk len root ar lc).toList = root.toList := rfl

theorem toList_root (v : Vector α) : v.toList = v.root.toList := rfl

theorem inv_def (v : Vector α) :
    v.Inv ↔ v.root.wf = true ∧ v.len = v.toList.length := Iff.rfl

/-- `Vector::new()` satisfies the invariants. -/
theorem new_inv : (new : Vector α).Inv := ⟨rfl, rfl⟩

/-- `Clone for Vector` produces a field-for-field equal vector (the root is
shared, which in this embedding is equality). -/
theorem clone_eq (v : Vector α) : clone v = v := rfl

/-- `from_slice` builds a well-formed vector holding exactly the input
sequence. -/
theorem fromSlice_spec (sz : Nat) (slice : List α) (cap : Nat)
    (hsz : 1 ≤ sz) (hcap : 1 ≤ cap) :
    (fromSlice sz slice (some cap)).toList = slice ∧
    (fromSlice sz slice (some cap)).len = slice.length ∧
    (fromSlice sz slice (some cap)).Inv ∧
    (fromSlice sz slice (some cap)).leafCap = cap := by
  have hwfm : ∀ m ∈ (chunksOf (maxLeafItems sz cap) slice).map Node.Z, m.wf = true := by
    intro m hm
    obtain ⟨d, _, rfl⟩ := List.mem_map.mp hm
    rfl
  obtain ⟨htl, hwf, _⟩ := Node.buildBottomsUp_clog
    ((chunksOf (maxLeafItems sz cap) slice).map Node.Z) hwfm
  have htl2 : (((chunksOf (maxLeafItems sz cap) slice).map Node.Z).map Node.toList).flatten
      = slice := by
    rw [List.map_map]
    have hcomp : Node.toList ∘ Node.Z = id (α := List α) := by
      funext d
      rfl
    rw [hcomp, List.map_id, chunksOf_flatten _ _ (maxLeafItems_pos hsz hcap)]
  have hroot : (fromSlice sz slice (some cap)).root.toList = slice := by
    rw [fromSlice]
    simp only [Option.getD_some]
    rw [htl, htl2]
  refine ⟨hroot, rfl, ⟨?_, ?_⟩, rfl⟩
  · rw [fromSlice]
    simp only [Option.getD_some]
    exact hwf
  · show slice.length = _
    rw [toList, hroot]

/-- `Vector::get` under the invariants: an in-bounds read returns `Ok` of
the `i`-th element of the sequence; out of bounds returns `IndexFail`. -/
theorem get_spec (v : Vector α) (hinv : v.Inv) (i : Nat) :
    (i < v.len → v.get i = .ok v.toList[i]?) ∧
    (v.len ≤ i → v.get i = .error .indexFail) := by
  constructor
  · intro hi
    rw [get, if_pos hi, Node.getIdx?_eq hinv.1]
    rfl
  · intro hi
    rw [get, if_neg (by omega)]

/-- `Vector::insert` on a validated offset: `Ok`, the sequence gains `val`
at `off` (the shadow-array `List.insertIdx`), the length grows by one and
the invariants are preserved. -/
theorem insert_ok (sz : Nat) (v : Vector α) (hinv : v.Inv) (off : Nat) (val : α)
    (hoff : off ≤ v.len) :
    (insert sz v off val).2 = .ok () ∧
    (insert sz v off val).1.toList = v.toList.insertIdx off val ∧
    (insert sz v off val).1.len = v.len + 1 ∧
    (insert sz v off val).1.Inv := by
  have hoff2 : off ≤ v.toList.length := hinv.2 ▸ hoff
  obtain ⟨htl, hwf⟩ := Node.insert_spec sz (mkRebalance sz v) v.root hinv.1 off val hoff2
  rw [insert, if_pos hoff]
  refine ⟨rfl, ?_, rfl, hwf, ?_⟩
  · show (Node.insert sz (mkRebalance sz v) v.root off val).1.toList = _
    rw [htl, insertIdx_eq_splice val off _ hoff2]
    rfl
  · show v.len + 1 = (Node.insert sz (mkRebalance sz v) v.root off val).1.toList.length
    rw [htl, splice_length val off v.root.toList hoff2, hinv.2]
    rfl

/-- `Vector::insert` rejects `off > len` leaving the vector untouched. -/
theorem insert_err (sz : Nat) (v : Vector α) (off : Nat) (val : α)
    (hoff : v.len < off) :
    insert sz v off val = (v, .error .indexFail) := by
  rw [insert, if_neg (by omega)]

/-- `Vector::insert_mut` on a validated offset behaves like `insert`:
`Ok`, shadow-array insertion, length + 1, invariants preserved. -/
theorem insertMut_ok (sz : Nat) (v : Vector α) (hinv : v.Inv) (off : Nat) (val : α)
    (hoff : off ≤ v.len) :
    (insertMut sz v off val).2 = .ok () ∧
    (insertMut sz v off val).1.toList = v.toList.insertIdx off val ∧
    (insertMut sz v off val).1.len = v.len + 1 ∧
    (insertMut sz v off val).1.Inv := by
  have hoff2 : off ≤ v.toList.length := hinv.2 ▸ hoff
  obtain ⟨htl, hwf⟩ := Node.insertMut_spec sz (mkRebalance sz v) v.root hinv.1 off val hoff2
  obtain ⟨harb, harbwf⟩ := Node.autoRebalance_spec sz
    (Node.insertMut sz (mkRebalance sz v) v.root off val).1
    (Node.insertMut sz (mkRebalance sz v) v.root off val).2 false false (mkRebalance sz v)
  rw [insertMut, if_pos hoff]
  refine ⟨rfl, ?_, rfl, harbwf hwf, ?_⟩
  · show (Node.autoRebalance sz _ _ false false (mkRebalance sz v)).1.toList = _
    rw [harb, htl, insertIdx_eq_splice val off _ hoff2]
    rfl
  · show v.len + 1 = (Node.autoRebalance sz _ _ false false (mkRebalance sz v)).1.toList.length
    rw [harb, htl, splice_length val off v.root.toList hoff2, hinv.2]
    rfl

theorem insertMut_err (sz : Nat) (v : Vector α) (off : Nat) (val : α)
    (hoff : v.len < off) :
    insertMut sz v off val = (v, .error .indexFail) := by
  rw [insertMut, if_neg (by omega)]

/-- `Vector::update` on a validated offset: `Ok` of the prior element, the
sequence's element is overwritten, length and invariants preserved. -/
theorem update_ok (v : Vector α) (hinv : v.Inv) (off : Nat) (val : α)
    (hoff : off < v.len) :
    (update v off val).2 = .ok v.toList[off]? ∧
    (update v off val).1.toList = v.toList.set off val ∧
    (update v off val).1.len = v.len ∧
    (update v off val).1.Inv := by
  have hoff2 : off < v.toList.length := hinv.2 ▸ hoff
  obtain ⟨htl, hwf, hold⟩ := Node.update_spec v.root hinv.1 off val hoff2
  rw [update, if_pos hoff]
  dsimp only
  refine ⟨by rw [hold]; rfl, ?_, rfl, hwf, ?_⟩
  · rw [toList_mk, htl]
    rfl
  · show v.len = _
    rw [toList_mk, htl, List.length_set, hinv.2]
    rfl

theorem update_err (v : Vector α) (off : Nat) (val : α) (hoff : v.len ≤ off) :
    update v off val = (v, .error .indexFail) := by
  rw [update, if_neg (by omega)]

/-- `Vector::update_mut` computes exactly what `update` does. -/
theorem updateMut_is_update (v : Vector α) (off : Nat) (val : α) :
    updateMut v off val = update v off val := by
  rw [updateMut, update, Node.updateMut_eq_update]

/-- `Vector::remove` on a validated offset: `Ok` of the removed element,
the sequence loses position `off` (`List.eraseIdx`), length − 1,
invariants preserved. -/
theorem remove_ok (v : Vector α) (hinv : v.Inv) (off : Nat) (hoff : off < v.len) :
    (remove v off).2 = .ok v.toList[off]? ∧
    (remove v off).1.toList = v.toList.eraseIdx off ∧
    (remove v off).1.len = v.len - 1 ∧
    (remove v off).1.Inv := by
  have hoff2 : off < v.toList.length := hinv.2 ▸ hoff
  obtain ⟨htl, hwf, hold⟩ := Node.remove_spec v.root hinv.1 off hoff2
  rw [remove, if_pos hoff]
  dsimp only
  have herase : (Node.remove v.root off).1.toList = v.toList.eraseIdx off := by
    rw [htl, List.eraseIdx_eq_take_drop_succ]
    rfl
  refine ⟨by rw [hold]; rfl, by rw [toList_mk, herase], rfl, hwf, ?_⟩
  show v.len - 1 = _
  rw [toList_mk, herase, List.length_eraseIdx_of_lt hoff2, hinv.2]

theorem remove_err (v : Vector α) (off : Nat) (hoff : v.len ≤ off) :
    remove v off = (v, .error .indexFail) := by
  rw [remove, if_neg (by omega)]

/-- `Vector::remove_mut` computes exactly what `remove` does. -/
theorem removeMut_is_remove (v : Vector α) (off : Nat) :
    removeMut v off = remove v off := by
  rw [removeMut, remove, Node.removeMut_eq_remove]

/-- `From<Vector<T>> for Vec<T>` (owned linearisation) produces the
logical sequence. -/
theorem toVec_eq_toList (sz : Nat) (v : Vector α) : toVec sz v = v.toList := by
  rw [toVec, Node.collectLeafNodes_false, Node.leafNodes_map_zdata, Node.flatten_leaves]
  rfl

/-- `Vector::split_off` on a validated offset: the facade keeps `[0, off)`
with length `off`, the returned vector holds `[off, len)` with length
`len - off`, both satisfy the invariants and keep the leaf capacity. -/
theorem splitOff_ok (v : Vector α) (hinv : v.Inv) (off : Nat) (hoff : off ≤ v.len) :
    (v.splitOff off).1.toList = v.toList.take off ∧
    (v.splitOff off).1.len = off ∧
    (v.splitOff off).1.Inv ∧
    (v.splitOff off).1.leafCap = v.leafCap ∧
    (v.splitOff off).1.autoRebalance = v.autoRebalance ∧
    ∃ r, (v.splitOff off).2 = .ok r ∧
      r.toList = v.toList.drop off ∧
      r.len = v.len - off ∧
      r.Inv ∧
      r.leafCap = v.leafCap ∧
      r.autoRebalance = v.autoRebalance := by
  by_cases heq : off = v.len
  · subst heq
    rw [splitOff, if_neg (by omega), if_pos (by simp)]
    have h1 : v.toList.take v.len = v.toList := by
      rw [hinv.2]
      exact List.take_length _
    have h2 : v.toList.drop v.len = [] := by
      rw [hinv.2]
      exact List.drop_length _
    exact ⟨h1.symm, rfl, hinv, rfl, rfl,
      ⟨0, .Z [], v.autoRebalance, v.leafCap⟩, rfl, by simp [h2], by simp,
      ⟨rfl, rfl⟩, rfl, rfl⟩
  · have hlt : off < v.len := by omega
    have hlt2 : off < v.toList.length := hinv.2 ▸ hlt
    have hveq : v.root.toList = v.toList := rfl
    obtain ⟨h1, h2, h3, h4, h5⟩ := Node.splitOff_spec v.root hinv.1 off v.len hinv.2 hlt
    rw [hveq] at h1 h2
    rw [splitOff, if_neg (by omega), if_neg (by simpa using heq)]
    dsimp only
    have hkeeplen : v.len - (Node.splitOff v.root off v.len).2.2 = off := by
      rw [h3]
      omega
    refine ⟨by rw [toList_mk, h1], hkeeplen, ⟨h4, ?_⟩, rfl, rfl,
      ⟨(Node.splitOff v.root off v.len).2.2, (Node.splitOff v.root off v.len).2.1,
        v.autoRebalance, v.leafCap⟩, rfl, by rw [toList_mk, h2], h3,
      ⟨h5, ?_⟩, rfl, rfl⟩
    · show v.len - (Node.splitOff v.root off v.len).2.2 = _
      rw [hkeeplen, toList_mk, h1, List.length_take]
      omega
    · show (Node.splitOff v.root off v.len).2.2 = _
      rw [h3, toList_mk, h2, List.length_drop, hinv.2]

theorem splitOff_err (v : Vector α) (off : Nat) (hoff : v.len < off) :
    v.splitOff off = (v, .error .indexFail) := by
  rw [splitOff, if_pos (by omega)]

/-- `Vector::append` concatenates the sequences and adds the lengths; when
the capacities agree no rebuild happens.  The positivity hypotheses are
needed only for the rebuild of a capacity-mismatched argument. -/
theorem append_spec (sz : Nat) (v other : Vector α) (hinv : v.Inv) (hinv2 : other.Inv)
    (hsz : 1 ≤ sz) (hcap : 1 ≤ v.leafCap) :
    (append sz v other).toList = v.toList ++ other.toList ∧
    (append sz v other).len = v.len + other.len ∧
    (append sz v other).Inv := by
  rw [append]
  by_cases hne : other.leafCap ≠ v.leafCap
  · simp only [if_pos hne]
    obtain ⟨htl, hlen, hinv3, _⟩ :=
      fromSlice_spec sz (toVec sz other) v.leafCap hsz hcap
    have htl2 : (fromSlice sz (toVec sz other) (some v.leafCap)).toList
        = other.toList := htl.trans (toVec_eq_toList sz other)
    have hlen2 : (fromSlice sz (toVec sz other) (some v.leafCap)).len
        = other.len := by
      rw [hlen, toVec_eq_toList, hinv2.2]
    refine ⟨?_, ?_, Node.wf_M hinv.2 hinv.1 hinv3.1, ?_⟩
    · show v.root.toList ++ (fromSlice sz (toVec sz other) (some v.leafCap)).root.toList
          = v.root.toList ++ other.toList
      rw [← toList_root (fromSlice sz (toVec sz other) (some v.leafCap)), htl2]
    · show v.len + (fromSlice sz (toVec sz other) (some v.leafCap)).len = _
      rw [hlen2]
    · show v.len + (fromSlice sz (toVec sz other) (some v.leafCap)).len = _
      rw [hlen2, toList_mk, Node.toList_M, List.length_append, hinv.2, hinv2.2]
      congr 1
      rw [← htl2]
      rfl
  · simp only [if_neg hne]
    refine ⟨?_, ?_, ?_, ?_⟩
    · rfl
    · trivial
    · exact Node.wf_M hinv.2 hinv.1 hinv2.1
    · show v.len + other.len
          = (Node.M v.len v.root other.root : Node α).toList.length
      rw [Node.toList_M, List.length_append, hinv.2, hinv2.2]
      rfl

/-- `Vector::append` when the leaf capacities agree (no rebuild of the
argument). -/
theorem append_spec_same (sz : Nat) (v other : Vector α) (hinv : v.Inv)
    (hinv2 : other.Inv) (hcapeq : other.leafCap = v.leafCap) :
    (append sz v other).toList = v.toList ++ other.toList ∧
    (append sz v other).len = v.len + other.len ∧
    (append sz v other).Inv := by
  rw [append]
  split
  · next h => exact absurd hcapeq h
  · refine ⟨?_, ?_, ?_, ?_⟩
    · rfl
    · rfl
    · exact Node.wf_M hinv.2 hinv.1 hinv2.1
    · show v.len + other.len
          = (Node.M v.len v.root other.root : Node α).toList.length
      rw [Node.toList_M, List.length_append, hinv.2, hinv2.2]
      rfl

theorem rebalance_spec (sz : Nat) (v : Vector α) (packed : Bool) :
    (rebalance sz v packed).toList = v.toList ∧
    (rebalance sz v packed).len = v.len ∧
    (v.Inv → (rebalance sz v packed).Inv) := by
  obtain ⟨harb, harbwf⟩ :=
    Node.autoRebalance_spec sz v.root 0 packed true (mkRebalance sz v)
  refine ⟨harb, rfl, fun hinv => ⟨harbwf hinv.1, ?_⟩⟩
  show v.len = (Node.autoRebalance sz v.root 0 packed true (mkRebalance sz v)).1.toList.length
  rw [harb, hinv.2]
  rfl

end Vector

/-! ## The auto-rebalance trigger in real-log form -/

/-- For `m ≥ 1`, the source's floating comparison
`(d as f64) > m.log2() * 3`, read in exact real arithmetic, is the integer
test `m³ < 2^d`. -/
theorem logb_cube_lt_iff (m d : Nat) (hm : 1 ≤ m) :
    3 * Real.logb 2 (m : ℝ) < (d : ℝ) ↔ m ^ 3 < 2 ^ d := by
  have hm0 : (0 : ℝ) < (m : ℝ) := by
    exact_mod_cast Nat.lt_of_lt_of_le Nat.zero_lt_one hm
  have hcube : (0 : ℝ) < (m : ℝ) ^ 3 := by positivity
  have hlogpow : Real.logb 2 ((m : ℝ) ^ 3) = 3 * Real.logb 2 (m : ℝ) := by
    rw [Real.logb_pow]
    norm_num
  rw [← hlogpow, Real.logb_lt_iff_lt_rpow (by norm_num) hcube, Real.rpow_natCast]
  constructor
  · intro h
    exact_mod_cast h
  · intro h
    exact_mod_cast h

/-- `Rebalance::can_rebalance` in the spec's vocabulary: true exactly when
the depth threshold is met and `d > 3·log₂(max 1 n_leafs)`. -/
theorem canRebalance_iff (rn : Rebalance) (depth : Nat) :
    canRebalance rn depth = true ↔
      (REBALANCE_THRESHOLD ≤ depth ∧
        3 * Real.logb 2 ((max 1 rn.nLeafs : Nat) : ℝ) < (depth : ℝ)) := by
  have hmax : 1 ≤ max 1 rn.nLeafs := Nat.le_max_left _ _
  unfold canRebalance
  by_cases hd : depth < REBALANCE_THRESHOLD
  · rw [if_pos hd]
    simp only [Bool.false_eq_true, false_iff, not_and]
    intro hge
    omega
  · rw [if_neg hd]
    rw [logb_cube_lt_iff _ _ hmax]
    by_cases hc : (max 1 rn.nLeafs) ^ 3 < 2 ^ depth
    · rw [if_pos hc]
      simp only [true_iff]
      exact ⟨by omega, hc⟩
    · rw [if_neg hc]
      simp only [Bool.false_eq_true, false_iff, not_and]
      intro _
      exact hc

/-! ## Packed-leaf block sizes -/

namespace Node

variable {α : Type}

theorem pack1_fst_length (cap : Nat) (last other : List α)
    (hlast : last.length ≤ cap) :
    (pack1 cap last other).1.length ≤ cap ∧
    ((pack1 cap last other).2.isSome = true → (pack1 cap last other).1.length = cap) ∧
    (∀ x, (pack1 cap last other).2 = some x → x.length ≤ other.length) := by
  by_cases hlt : last.length < cap
  · simp only [pack1, if_pos hlt]
    by_cases h2 : 0 < (other.drop (min (cap - last.length) other.length)).length
    · rw [if_pos h2]
      simp only [List.length_drop] at h2
      refine ⟨?_, ?_, ?_⟩
      · simp only [List.length_append, List.length_take]
        omega
      · intro _
        simp only [List.length_append, List.length_take]
        omega
      · intro x hx
        rw [Option.some.injEq] at hx
        rw [← hx]
        simp
    · rw [if_neg h2]
      refine ⟨?_, by simp, by simp⟩
      simp only [List.length_append, List.length_take]
      omega
  · simp only [pack1, if_neg hlt]
    by_cases h2 : 0 < other.length
    · rw [if_pos h2]
      refine ⟨hlast, fun _ => by omega, fun x hx => ?_⟩
      obtain rfl : other = x := by simpa using hx
      exact Nat.le_refl _
    · rw [if_neg h2]
      exact ⟨hlast, by simp, by simp⟩

/-- Invariant of the packing fold: every block except the open head has
exactly `cap` elements, and every block has at most `cap`. -/
theorem packFoldl_sizes (cap : Nat) :
    ∀ (leafs : List (Node α)) (acc : List (List α)),
      (∀ m ∈ leafs, m.zdata.length ≤ cap) →
      (∀ b ∈ acc.drop 1, b.length = cap) →
      (∀ b ∈ acc, b.length ≤ cap) →
      (∀ b ∈ (leafs.foldl (packStep cap) acc).drop 1, b.length = cap) ∧
      (∀ b ∈ leafs.foldl (packStep cap) acc, b.length ≤ cap) := by
  intro leafs
  induction leafs with
  | nil => exact fun acc _ h1 h2 => ⟨h1, h2⟩
  | cons leaf rest ih =>
    intro acc hle h1 h2
    rw [List.foldl_cons]
    have hleaf : leaf.zdata.length ≤ cap := hle leaf (by simp)
    have hrest : ∀ m ∈ rest, m.zdata.length ≤ cap := fun m hm => hle m (by simp [hm])
    refine ih (packStep cap acc leaf) hrest ?_ ?_
    · rcases acc with _ | ⟨last, racc⟩
      · simp [packStep]
      · have hp := pack1_fst_length cap last leaf.zdata (h2 last (by simp))
        rcases hp2 : pack1 cap last leaf.zdata with ⟨last2, lo⟩
        rw [hp2] at hp
        rcases lo with _ | nxt
        · simp only [packStep, hp2]
          intro b hb
          simp only [List.drop_one, List.tail_cons] at hb
          exact h1 b (by simpa using hb)
        · simp only [packStep, hp2]
          intro b hb
          simp only [List.drop_one, List.tail_cons, List.mem_cons] at hb
          rcases hb with rfl | hb
          · exact hp.2.1 (by simp)
          · exact h1 b (by simpa using hb)
    · rcases acc with _ | ⟨last, racc⟩
      · intro b hb
        simp only [packStep, List.mem_singleton] at hb
        subst hb
        exact hleaf
      · have hp := pack1_fst_length cap last leaf.zdata (h2 last (by simp))
        rcases hp2 : pack1 cap last leaf.zdata with ⟨last2, lo⟩
        rw [hp2] at hp
        rcases lo with _ | nxt
        · simp only [packStep, hp2]
          intro b hb
          rcases List.mem_cons.mp hb with rfl | hb
          · exact hp.1
          · exact h2 b (by simp [hb])
        · simp only [packStep, hp2]
          intro b hb
          rcases List.mem_cons.mp hb with rfl | hb
          · exact Nat.le_trans (hp.2.2 b rfl) hleaf
          · rcases List.mem_cons.mp hb with rfl | hb
            · exact hp.1
            · exact h2 b (by simp [hb])

theorem dropLast_reverse {β : Type} (l : List β) :
    l.reverse.dropLast = l.tail.reverse := by
  rcases l with _ | ⟨a, t⟩
  · rfl
  · rw [List.reverse_cons, List.dropLast_concat, List.tail_cons]

/-- In the packed leaf list every block but the last holds exactly
`cap` elements, provided the input leaves respect the capacity. -/
theorem packLeaves_sizes (cap : Nat) (leafs : List (Node α))
    (hle : ∀ m ∈ leafs, m.zdata.length ≤ cap) :
    ∀ b ∈ ((packLeaves cap leafs).map Node.zdata).dropLast, b.length = cap := by
  intro b hb
  unfold packLeaves at hb
  rw [List.map_map] at hb
  have hzz : Node.zdata ∘ Node.Z = id (α := List α) := by
    funext d
    rfl
  rw [hzz, List.map_id, dropLast_reverse] at hb
  obtain ⟨h1, _⟩ := packFoldl_sizes cap leafs [] hle (by simp) (by simp)
  rw [List.mem_reverse] at hb
  exact h1 b (by simpa [List.drop_one] using hb)

theorem collectLeafNodes_true (sz cap : Nat) (root : Node α) :
    collectLeafNodes sz root true cap = packLeaves (maxLeafItems sz cap) root.leafNodes := by
  simp [collectLeafNodes, collectLoop_eq]

/-- The leaf blocks of a tree are the `zdata` of its leaf nodes. -/
theorem leaves_eq_leafNodes_zdata (n : Node α) : n.leaves = n.leafNodes.map zdata :=
  (leafNodes_map_zdata n).symm

end Node

/-! ## Claim theorems -/

/-- Claim C1 (persistence of clones under copy-on-write insert).  In this
pure embedding no operation can mutate an existing value, so the original
`v` is unchanged by construction (invariant I5); what there is to prove is
that `clone` shares everything with `v` (clone v = v) and that the insert
on the clone succeeds and observes exactly the shadow-array insertion
`List.insertIdx o x` with length `len + 1`, preserving the invariants. -/
theorem C1_clone_insert_persistence {α : Type} (sz : Nat) (v : Vector α)
    (o : Nat) (x : α) (hinv : v.Inv) (ho : o ≤ v.len) :
    Vector.clone v = v ∧
    (Vector.insert sz (Vector.clone v) o x).2 = Except.ok () ∧
    (Vector.insert sz (Vector.clone v) o x).1.toList = v.toList.insertIdx o x ∧
    (Vector.insert sz (Vector.clone v) o x).1.len = v.len + 1 ∧
    (Vector.insert sz (Vector.clone v) o x).1.Inv := by
  rw [Vector.clone_eq]
  obtain ⟨h1, h2, h3, h4⟩ := Vector.insert_ok sz v hinv o x ho
  exact ⟨rfl, h1, h2, h3, h4⟩

theorem C1_witness :
    (⟨3, Node.M 2 (Node.Z [10, 20]) (Node.Z [30]), true, 16⟩ : Vector Nat).Inv ∧
    1 ≤ (⟨3, Node.M 2 (Node.Z [10, 20]) (Node.Z [30]), true, 16⟩ : Vector Nat).len ∧
    (Vector.insert 8
        (Vector.clone (⟨3, Node.M 2 (Node.Z [10, 20]) (Node.Z [30]), true, 16⟩ : Vector Nat))
        1 99).1.toList
      = (⟨3, Node.M 2 (Node.Z [10, 20]) (Node.Z [30]), true, 16⟩ :
          Vector Nat).toList.insertIdx 1 99 :=
  ⟨by decide, by decide,
    (C1_clone_insert_persistence 8 _ 1 99 (by decide) (by decide)).2.2.1⟩

/-- Claim C2 (`from_slice` correctness): for every slice and positive leaf
capacity (and positive element size, as in any inhabited Rust type) the
built vector has the slice's length, `get` returns each element of the
slice, and linearising the vector — `toList`, or the source's own
`From<Vector<T>> for Vec<T>` iteration captured by `toVec` — yields
exactly the slice. -/
theorem C2_fromSlice_correct {α : Type} (sz cap : Nat) (s : List α)
    (hsz : 1 ≤ sz) (hcap : 1 ≤ cap) :
    (Vector.fromSlice sz s (some cap)).len = s.length ∧
    (Vector.fromSlice sz s (some cap)).toList = s ∧
    Vector.toVec sz (Vector.fromSlice sz s (some cap)) = s ∧
    (∀ i (hi : i < s.length),
      (Vector.fromSlice sz s (some cap)).get i = .ok (some (s.get ⟨i, hi⟩))) ∧
    (Vector.fromSlice sz s (some cap)).Inv := by
  obtain ⟨htl, hlen, hinv, _⟩ := Vector.fromSlice_spec sz s cap hsz hcap
  refine ⟨hlen, htl, ?_, ?_, hinv⟩
  · rw [Vector.toVec_eq_toList, htl]
  · intro i hi
    obtain ⟨hget, _⟩ := Vector.get_spec _ hinv i
    rw [hget (by omega), htl]
    rw [List.getElem?_eq_getElem hi]
    simp

theorem C2_witness :
    (1 ≤ 1 ∧ 1 ≤ 2) ∧
    (Vector.fromSlice 1 [5, 6, 7] (some 2)).toList = [5, 6, 7] ∧
    (Vector.fromSlice 1 [5, 6, 7] (some 2)).len = 3 :=
  ⟨⟨by decide, by decide⟩,
    (C2_fromSlice_correct 1 2 [5, 6, 7] (by decide) (by decide)).2.1,
    (C2_fromSlice_correct 1 2 [5, 6, 7] (by decide) (by decide)).1⟩

/-- Claim C3 (index-bounds error contract): on an invariant-satisfying
vector, `insert`/`insert_mut` succeed exactly for `off ≤ len` and fail with
`IndexFail` exactly for `off > len`; `get`, `update`, `remove` and their
in-place versions succeed (producing a value) exactly for `off < len` and
fail with `IndexFail` exactly for `off ≥ len`. -/
theorem C3_index_bounds {α : Type} (sz : Nat) (v : Vector α) (hinv : v.Inv)
    (off : Nat) (x : α) :
    ((Vector.insert sz v off x).2 = .ok () ↔ off ≤ v.len) ∧
    ((Vector.insert sz v off x).2 = .error .indexFail ↔ off > v.len) ∧
    ((Vector.insertMut sz v off x).2 = .ok () ↔ off ≤ v.len) ∧
    ((Vector.insertMut sz v off x).2 = .error .indexFail ↔ off > v.len) ∧
    ((∃ a, v.get off = .ok (some a)) ↔ off < v.len) ∧
    (v.get off = .error .indexFail ↔ off ≥ v.len) ∧
    ((∃ a, (Vector.update v off x).2 = .ok (some a)) ↔ off < v.len) ∧
    ((Vector.update v off x).2 = .error .indexFail ↔ off ≥ v.len) ∧
    ((∃ a, (Vector.updateMut v off x).2 = .ok (some a)) ↔ off < v.len) ∧
    ((Vector.updateMut v off x).2 = .error .indexFail ↔ off ≥ v.len) ∧
    ((∃ a, (Vector.remove v off).2 = .ok (some a)) ↔ off < v.len) ∧
    ((Vector.remove v off).2 = .error .indexFail ↔ off ≥ v.len) ∧
    ((∃ a, (Vector.removeMut v off).2 = .ok (some a)) ↔ off < v.len) ∧
    ((Vector.removeMut v off).2 = .error .indexFail ↔ off ≥ v.len) := by
  have hsome : off < v.len → ∃ a, v.toList[off]? = some a := by
    intro h
    exact ⟨_, List.getElem?_eq_getElem (hinv.2 ▸ h)⟩
  refine ⟨?_, ?_, ?_, ?_, ?_, ?_, ?_, ?_, ?_, ?_, ?_, ?_, ?_, ?_⟩
  · constructor
    · intro h
      by_contra hc
      rw [Vector.insert_err sz v off x (by omega)] at h
      exact absurd h (by simp)
    · intro h
      exact (Vector.insert_ok sz v hinv off x h).1
  · constructor
    · intro h
      by_contra hc
      rw [(Vector.insert_ok sz v hinv off x (by omega)).1] at h
      exact absurd h (by simp)
    · intro h
      rw [Vector.insert_err sz v off x (by omega)]
  · constructor
    · intro h
      by_contra hc
      rw [Vector.insertMut_err sz v off x (by omega)] at h
      exact absurd h (by simp)
    · intro h
      exact (Vector.insertMut_ok sz v hinv off x h).1
  · constructor
    · intro h
      by_contra hc
      rw [(Vector.insertMut_ok sz v hinv off x (by omega)).1] at h
      exact absurd h (by simp)
    · intro h
      rw [Vector.insertMut_err sz v off x (by omega)]
  · constructor
    · rintro ⟨a, ha⟩
      by_contra hc
      rw [(Vector.get_spec v hinv off).2 (by omega)] at ha
      exact absurd ha (by simp)
    · intro h
      obtain ⟨a, ha⟩ := hsome h
      exact ⟨a, by rw [(Vector.get_spec v hinv off).1 h, ha]⟩
  · constructor
    · intro h
      by_contra hc
      obtain ⟨a, ha⟩ := hsome (by omega)
      rw [(Vector.get_spec v hinv off).1 (by omega), ha] at h
      exact absurd h (by simp)
    · intro h
      exact (Vector.get_spec v hinv off).2 h
  · constructor
    · rintro ⟨a, ha⟩
      by_contra hc
      rw [Vector.update_err v off x (by omega)] at ha
      exact absurd ha (by simp)
    · intro h
      obtain ⟨a, ha⟩ := hsome h
      exact ⟨a, by rw [(Vector.update_ok v hinv off x h).1, ha]⟩
  · constructor
    · intro h
      by_contra hc
      obtain ⟨a, ha⟩ := hsome (by omega)
      rw [(Vector.update_ok v hinv off x (by omega)).1, ha] at h
      exact absurd h (by simp)
    · intro h
      rw [Vector.update_err v off x (by omega)]
  · constructor
    · rintro ⟨a, ha⟩
      by_contra hc
      rw [Vector.updateMut_is_update, Vector.update_err v off x (by omega)] at ha
      exact absurd ha (by simp)
    · intro h
      obtain ⟨a, ha⟩ := hsome h
      refine ⟨a, ?_⟩
      rw [Vector.updateMut_is_update, (Vector.update_ok v hinv off x h).1, ha]
  · constructor
    · intro h
      by_contra hc
      obtain ⟨a, ha⟩ := hsome (by omega)
      rw [Vector.updateMut_is_update, (Vector.update_ok v hinv off x (by omega)).1, ha] at h
      exact absurd h (by simp)
    · intro h
      rw [Vector.updateMut_is_update, Vector.update_err v off x (by omega)]
  · constructor
    · rintro ⟨a, ha⟩
      by_contra hc
      rw [Vector.remove_err v off (by omega)] at ha
      exact absurd ha (by simp)
    · intro h
      obtain ⟨a, ha⟩ := hsome h
      exact ⟨a, by rw [(Vector.remove_ok v hinv off h).1, ha]⟩
  · constructor
    · intro h
      by_contra hc
      obtain ⟨a, ha⟩ := hsome (by omega)
      rw [(Vector.remove_ok v hinv off (by omega)).1, ha] at h
      exact absurd h (by simp)
    · intro h
      rw [Vector.remove_err v off (by omega)]
  · constructor
    · rintro ⟨a, ha⟩
      by_contra hc
      rw [Vector.removeMut_is_remove, Vector.remove_err v off (by omega)] at ha
      exact absurd ha (by simp)
    · intro h
      obtain ⟨a, ha⟩ := hsome h
      refine ⟨a, ?_⟩
      rw [Vector.removeMut_is_remove, (Vector.remove_ok v hinv off h).1, ha]
  · constructor
    · intro h
      by_contra hc
      obtain ⟨a, ha⟩ := hsome (by omega)
      rw [Vector.removeMut_is_remove, (Vector.remove_ok v hinv off (by omega)).1, ha] at h
      exact absurd h (by simp)
    · intro h
      rw [Vector.removeMut_is_remove, Vector.remove_err v off (by omega)]

theorem C3_witness :
    (⟨2, Node.M 1 (Node.Z [4]) (Node.Z [8]), true, 16⟩ : Vector Nat).Inv ∧
    ((Vector.insert 8 (⟨2, Node.M 1 (Node.Z [4]) (Node.Z [8]), true, 16⟩ : Vector Nat)
        3 7).2 = .error .indexFail ↔
      3 > (⟨2, Node.M 1 (Node.Z [4]) (Node.Z [8]), true, 16⟩ : Vector Nat).len) :=
  ⟨by decide, (C3_index_bounds 8 _ (by decide) 3 7).2.1⟩

/-- Claim C4 (structural invariants I1 and I2 after every public
operation): `Inv` packages I1 (`length` equals the root's element count)
and I2 (every internal node's `weight` equals its left subtree's count);
it holds for `new` and `from_slice` outputs and is preserved by `clone`,
both inserts, both updates, both removes, `split_off` (for both returned
vectors), `append` and `rebalance`, at every validated offset.  The
positivity hypotheses on `sz`/capacities are those of any inhabited Rust
element type and a positive leaf capacity. -/
theorem C4_invariants {α : Type} (sz : Nat) :
    (Vector.new : Vector α).Inv ∧
    (∀ (s : List α) (cap : Nat), 1 ≤ sz → 1 ≤ cap →
      (Vector.fromSlice sz s (some cap)).Inv) ∧
    (∀ v : Vector α, v.Inv → (Vector.clone v).Inv) ∧
    (∀ (v : Vector α) (off : Nat) (x : α), v.Inv → off ≤ v.len →
      (Vector.insert sz v off x).1.Inv) ∧
    (∀ (v : Vector α) (off : Nat) (x : α), v.Inv → off ≤ v.len →
      (Vector.insertMut sz v off x).1.Inv) ∧
    (∀ (v : Vector α) (off : Nat) (x : α), v.Inv → off < v.len →
      (Vector.update v off x).1.Inv) ∧
    (∀ (v : Vector α) (off : Nat) (x : α), v.Inv → off < v.len →
      (Vector.updateMut v off x).1.Inv) ∧
    (∀ (v : Vector α) (off : Nat), v.Inv → off < v.len →
      (Vector.remove v off).1.Inv) ∧
    (∀ (v : Vector α) (off : Nat), v.Inv → off < v.len →
      (Vector.removeMut v off).1.Inv) ∧
    (∀ (v : Vector α) (off : Nat), v.Inv → off ≤ v.len →
      (v.splitOff off).1.Inv ∧ ∀ r, (v.splitOff off).2 = .ok r → r.Inv) ∧
    (∀ v other : Vector α, v.Inv → other.Inv → 1 ≤ sz → 1 ≤ v.leafCap →
      (Vector.append sz v other).Inv) ∧
    (∀ (v : Vector α) (packed : Bool), v.Inv →
      (Vector.rebalance sz v packed).Inv) := by
  refine ⟨Vector.new_inv, ?_, ?_, ?_, ?_, ?_, ?_, ?_, ?_, ?_, ?_, ?_⟩
  · intro s cap hsz hcap
    exact (Vector.fromSlice_spec sz s cap hsz hcap).2.2.1
  · intro v hinv
    rw [Vector.clone_eq]
    exact hinv
  · intro v off x hinv hoff
    exact (Vector.insert_ok sz v hinv off x hoff).2.2.2
  · intro v off x hinv hoff
    exact (Vector.insertMut_ok sz v hinv off x hoff).2.2.2
  · intro v off x hinv hoff
    exact (Vector.update_ok v hinv off x hoff).2.2.2
  · intro v off x hinv hoff
    rw [Vector.updateMut_is_update]
    exact (Vector.update_ok v hinv off x hoff).2.2.2
  · intro v off hinv hoff
    exact (Vector.remove_ok v hinv off hoff).2.2.2
  · intro v off hinv hoff
    rw [Vector.removeMut_is_remove]
    exact (Vector.remove_ok v hinv off hoff).2.2.2
  · intro v off hinv hoff
    obtain ⟨_, _, hkeep, _, _, r, hr, _, _, hrinv, _⟩ :=
      Vector.splitOff_ok v hinv off hoff
    refine ⟨hkeep, ?_⟩
    intro r2 hr2
    rw [hr] at hr2
    obtain rfl : r = r2 := by simpa using hr2
    exact hrinv
  · intro v other hinv hinv2 hsz hcap
    exact (Vector.append_spec sz v other hinv hinv2 hsz hcap).2.2
  · intro v packed hinv
    exact (Vector.rebalance_spec sz v packed).2.2 hinv

theorem C4_witness :
    (⟨2, Node.M 1 (Node.Z [4]) (Node.Z [8]), true, 16⟩ : Vector Nat).Inv ∧
    (Vector.insert 8 (⟨2, Node.M 1 (Node.Z [4]) (Node.Z [8]), true, 16⟩ : Vector Nat)
      0 7).1.Inv ∧
    (Vector.remove (⟨2, Node.M 1 (Node.Z [4]) (Node.Z [8]), true, 16⟩ : Vector Nat)
      1).1.Inv :=
  ⟨by decide,
    (C4_invariants 8).2.2.2.1 _ 0 7 (by decide) (by decide),
    (C4_invariants 8).2.2.2.2.2.2.2.1 _ 1 (by decide) (by decide)⟩

/-- Claim C5 (split/append round trip): splitting an invariant-satisfying
vector at `o ≤ len` leaves `[0, o)` (length `o`) in the facade and returns
`[o, len)` (length `len - o`); appending the returned vector back restores
the original sequence and length (the tree shape may differ; the sequence
is compared).  `split_off` copies the leaf capacity, so both sides share
it as the claim requires. -/
theorem C5_split_append_roundtrip {α : Type} (sz : Nat) (a : Vector α)
    (hinv : a.Inv) (o : Nat) (ho : o ≤ a.len) :
    (a.splitOff o).1.toList = a.toList.take o ∧
    (a.splitOff o).1.len = o ∧
    ∃ r, (a.splitOff o).2 = .ok r ∧
      r.toList = a.toList.drop o ∧
      r.len = a.len - o ∧
      r.leafCap = (a.splitOff o).1.leafCap ∧
      (Vector.append sz (a.splitOff o).1 r).toList = a.toList ∧
      (Vector.append sz (a.splitOff o).1 r).len = a.len := by
  obtain ⟨h1, h2, h3, h4, _, r, hr, hr1, hr2, hr3, hr4, _⟩ :=
    Vector.splitOff_ok a hinv o ho
  obtain ⟨ha1, ha2, _⟩ := Vector.append_spec_same sz (a.splitOff o).1 r h3 hr3
    (by rw [hr4, h4])
  refine ⟨h1, h2, r, hr, hr1, hr2, by rw [hr4, h4], ?_, ?_⟩
  · rw [ha1, h1, hr1, List.take_append_drop]
  · rw [ha2, h2, hr2]
    omega

theorem C5_witness :
    (⟨3, Node.M 2 (Node.Z [10, 20]) (Node.Z [30]), true, 16⟩ : Vector Nat).Inv ∧
    ∃ r, ((⟨3, Node.M 2 (Node.Z [10, 20]) (Node.Z [30]), true, 16⟩ :
            Vector Nat).splitOff 1).2 = .ok r ∧
      r.toList = (⟨3, Node.M 2 (Node.Z [10, 20]) (Node.Z [30]), true, 16⟩ :
        Vector Nat).toList.drop 1 ∧
      r.len = 2 :=
  ⟨by decide, by
    obtain ⟨_, _, r, hr, hr1, hr2, _, _, _⟩ :=
      C5_split_append_roundtrip 8
        (⟨3, Node.M 2 (Node.Z [10, 20]) (Node.Z [30]), true, 16⟩ : Vector Nat)
        (by decide) 1 (by decide)
    exact ⟨r, hr, hr1, hr2⟩⟩

theorem flatten_map_singleton {β γ : Type} (f : β → γ) (l : List β) :
    (l.map (fun b => [f b])).flatten = l.map f := by
  induction l with
  | nil => rfl
  | cons a t ih => simp [ih]

theorem packLeaves_leafNodes_flatten {α : Type} (cap : Nat) (leafs : List (Node α)) :
    ((Node.packLeaves cap leafs).map Node.leafNodes).flatten
      = Node.packLeaves cap leafs := by
  unfold Node.packLeaves
  rw [List.map_map]
  have hc : Node.leafNodes ∘ Node.Z
      = fun d : List α => [Node.Z d] := by
    funext d
    rfl
  rw [hc, flatten_map_singleton]

/-- Claim C6 (auto-rebalance trigger predicate): with the `Rebalance`
snapshot taken from the facade (`n_leafs = length / max_items(leaf_cap)`
by integer division), a rebuild of the offered subtree happens exactly when
the caller forces it, or `auto_rebalance` is set and the depth counter `d`
satisfies both `d ≥ 30` (`REBALANCE_THRESHOLD`) and
`d > 3·log₂(max 1 n_leafs)` (the source's `f64` comparison read in exact
real arithmetic); when the decision is false the offer returns the subtree
unchanged, and when it is true the offer returns the bottom-up rebuild at
depth `⌈log₂ #leaves⌉`. -/
theorem C6_auto_rebalance_trigger {α : Type} (sz : Nat) (v : Vector α)
    (depth : Nat) (packed force : Bool) (node : Node α) :
    (rebalanceDoit force (Vector.mkRebalance sz v) depth = true ↔
      (force = true ∨ (v.autoRebalance = true ∧ REBALANCE_THRESHOLD ≤ depth ∧
        3 * Real.logb 2 ((max 1 (v.len / maxLeafItems sz v.leafCap) : Nat) : ℝ)
          < (depth : ℝ)))) ∧
    (rebalanceDoit force (Vector.mkRebalance sz v) depth = false →
      Node.autoRebalance sz node depth packed force (Vector.mkRebalance sz v)
        = (node, depth)) ∧
    (rebalanceDoit force (Vector.mkRebalance sz v) depth = true →
      Node.autoRebalance sz node depth packed force (Vector.mkRebalance sz v)
        = ((Node.buildBottomsUp
              (Nat.clog 2 (Node.collectLeafNodes sz node packed v.leafCap).length)
              (Node.collectLeafNodes sz node packed v.leafCap)).1,
            Nat.clog 2 (Node.collectLeafNodes sz node packed v.leafCap).length)) := by
  refine ⟨?_, ?_, ?_⟩
  · rw [rebalanceDoit, Bool.or_eq_true, Bool.and_eq_true, canRebalance_iff]
    exact Iff.rfl
  · intro h
    rw [Node.autoRebalance, if_neg (by simp [h])]
  · intro h
    rw [Node.autoRebalance, if_pos h]
    rfl

theorem C6_witness :
    rebalanceDoit false
        (Vector.mkRebalance 8 (⟨1, Node.Z [5], false, 16⟩ : Vector Nat)) 3 = false ∧
    Node.autoRebalance 8 (Node.Z [5]) 3 false false
        (Vector.mkRebalance 8 (⟨1, Node.Z [5], false, 16⟩ : Vector Nat))
      = (Node.Z [5], 3) :=
  ⟨by decide,
    (C6_auto_rebalance_trigger 8 (⟨1, Node.Z [5], false, 16⟩ : Vector Nat)
      3 false false (Node.Z [5])).2.1 (by decide)⟩

/-- Claim C7, counterexample: on the two-level tree `M 1 (Z [5]) (Z [7])`
(leaf capacity 10 items, no rebalance interference) the copy-on-write
`Node::insert` returns depth 2 — leaf contributes 1, the `M` node adds 1 —
but `Node::insert_mut` on the same descent returns 1: its `M` arms pass
the child's depth through without adding 1, contradicting the claim that
`insert_mut` returns the same depth counter with `M` adding 1. -/
theorem C7_counterexample :
    (Node.insertMut 8 ⟨0, true, 80⟩ (Node.M 1 (Node.Z [5]) (Node.Z [7])) 0 9).2 = 1 ∧
    (Node.insert 8 ⟨0, true, 80⟩ (Node.M 1 (Node.Z [5]) (Node.Z [7])) 0 9).2 = 2 := by
  decide

/-- Claim C7 as amended: `insert_mut` performs the same positional descent
as the CoW insert and produces the same new sequence, but its depth counter
is the leaf's contribution only — `1` for a plain leaf insert, `2` for a
split-insert — passed through every `M` node *unchanged* (hence always `1`
or `2`); `Vector::insert_mut` offers exactly this depth to auto-rebalance. -/
theorem C7_insertMut_depth {α : Type} (sz : Nat) (rn : Rebalance) (n : Node α)
    (off : Nat) (val : α) :
    ((Node.insertMut sz rn n off val).2 = 1 ∨ (Node.insertMut sz rn n off val).2 = 2) ∧
    (∀ (w : Nat) (l r : Node α), off < w →
      (Node.insertMut sz rn (.M w l r) off val).2
        = (Node.insertMut sz rn l off val).2) ∧
    (∀ (w : Nat) (l r : Node α), ¬ off < w →
      (Node.insertMut sz rn (.M w l r) off val).2
        = (Node.insertMut sz rn r (off - w) val).2) ∧
    (∀ v : Vector α, off ≤ v.len →
      (Vector.insertMut sz v off val).1.root
        = (Node.autoRebalance sz
            (Node.insertMut sz (Vector.mkRebalance sz v) v.root off val).1
            (Node.insertMut sz (Vector.mkRebalance sz v) v.root off val).2
            false false (Vector.mkRebalance sz v)).1) := by
  refine ⟨Node.insertMut_depth sz rn n off val, ?_, ?_, ?_⟩
  · intro w l r hlt
    rw [Node.insertMut, if_pos hlt]
  · intro w l r hlt
    rw [Node.insertMut, if_neg hlt]
  · intro v hoff
    rw [Vector.insertMut, if_pos hoff]

theorem C7_witness :
    ((Node.insertMut 8 ⟨0, true, 80⟩ (Node.M 1 (Node.Z [5]) (Node.Z [7])) 0 9).2 = 1 ∨
      (Node.insertMut 8 ⟨0, true, 80⟩ (Node.M 1 (Node.Z [5]) (Node.Z [7])) 0 9).2 = 2) ∧
    (0 < 1 ∧
      (Node.insertMut 8 ⟨0, true, 80⟩ (Node.M 1 (Node.Z [5]) (Node.Z [7])) 0 9).2
        = (Node.insertMut 8 ⟨0, true, 80⟩ (Node.Z [5]) 0 9).2) :=
  ⟨(C7_insertMut_depth 8 ⟨0, true, 80⟩ (Node.M 1 (Node.Z [5]) (Node.Z [7])) 0 9).1,
    by decide,
    (C7_insertMut_depth 8 ⟨0, true, 80⟩ (Node.M 1 (Node.Z [5]) (Node.Z [7])) 0 9).2.1
      1 (Node.Z [5]) (Node.Z [7]) (by decide)⟩

/-- Claim C8, counterexample: at the internal node `M 1 (Z [5]) (Z [7])`
with `o = weight = 1`, the claim predicts a left recursion with the weight
bumped to 2 (yielding `M 2 (Z [5, 9]) (Z [7])`); the code tests
`off < weight`, so at `o = weight` it recurses right with `o - weight`
and keeps the weight, yielding `M 1 (Z [5]) (Z [9, 7])`. -/
theorem C8_counterexample :
    (Node.insert 8 ⟨0, true, 80⟩ (Node.M 1 (Node.Z [5]) (Node.Z [7])) 1 9).1
      = Node.M 1 (Node.Z [5]) (Node.Z [9, 7]) ∧
    (Node.insert 8 ⟨0, true, 80⟩ (Node.M 1 (Node.Z [5]) (Node.Z [7])) 1 9).1
      ≠ Node.M 2 (Node.Z [5, 9]) (Node.Z [7]) := by
  decide

/-- Claim C8 as amended: at an internal node the copy-on-write insert
recurses left (rebuilding with the new left child, the old right child and
`weight + 1`) exactly when `o < weight`; when `o ≥ weight` — including
`o = weight` — it recurses right with `o - weight`, keeping the weight;
each branch then offers the rebuilt node to auto-rebalance. -/
theorem C8_insert_descent {α : Type} (sz : Nat) (rn : Rebalance) (w : Nat)
    (l r : Node α) (off : Nat) (val : α) :
    (off < w →
      Node.insert sz rn (.M w l r) off val
        = Node.autoRebalance sz (.M (w + 1) (Node.insert sz rn l off val).1 r)
            ((Node.insert sz rn l off val).2 + 1) false false rn) ∧
    (w ≤ off →
      Node.insert sz rn (.M w l r) off val
        = Node.autoRebalance sz (.M w l (Node.insert sz rn r (off - w) val).1)
            ((Node.insert sz rn r (off - w) val).2 + 1) false false rn) := by
  constructor
  · intro hlt
    rw [Node.insert, if_pos hlt]
  · intro hge
    rw [Node.insert, if_neg (by omega)]

theorem C8_witness :
    1 ≤ 1 ∧
    Node.insert 8 ⟨0, true, 80⟩ (Node.M 1 (Node.Z [5]) (Node.Z [7])) 1 9
      = Node.autoRebalance 8
          (Node.M 1 (Node.Z [5]) (Node.insert 8 ⟨0, true, 80⟩ (Node.Z [7]) 0 9).1)
          ((Node.insert 8 ⟨0, true, 80⟩ (Node.Z [7]) 0 9).2 + 1) false false
          ⟨0, true, 80⟩ :=
  ⟨by decide,
    (C8_insert_descent 8 ⟨0, true, 80⟩ 1 (Node.Z [5]) (Node.Z [7]) 1 9).2 (by decide)⟩

/-- Claim C9 (rebalance preserves the sequence; packing fills leaves):
`v.rebalance(packed)` returns a vector with the same length and
element-for-element equal sequence; with `packed = true`, provided `v`'s
leaves respect the leaf capacity (invariant I3), every leaf block of the
rebuilt tree except possibly the last holds exactly
`max_items(leaf_cap)` elements. -/
theorem C9_rebalance_preserves {α : Type} (sz : Nat) (v : Vector α) (packed : Bool) :
    (Vector.rebalance sz v packed).toList = v.toList ∧
    (Vector.rebalance sz v packed).len = v.len ∧
    (v.Inv → (Vector.rebalance sz v packed).Inv) ∧
    ((∀ b ∈ v.root.leaves, b.length ≤ maxLeafItems sz v.leafCap) →
      ∀ b ∈ ((Vector.rebalance sz v true).root.leaves).dropLast,
        b.length = maxLeafItems sz v.leafCap) := by
  obtain ⟨h1, h2, h3⟩ := Vector.rebalance_spec sz v packed
  refine ⟨h1, h2, h3, ?_⟩
  intro hle
  have hroot : (Vector.rebalance sz v true).root
      = (Node.buildBottomsUp
          (Nat.clog 2 (Node.collectLeafNodes sz v.root true v.leafCap).length)
          (Node.collectLeafNodes sz v.root true v.leafCap)).1 := by
    show (Node.autoRebalance sz v.root 0 true true (Vector.mkRebalance sz v)).1 = _
    rw [Node.autoRebalance,
      if_pos (show rebalanceDoit true (Vector.mkRebalance sz v) 0 = true from rfl)]
    rfl
  have hcol : Node.collectLeafNodes sz v.root true v.leafCap
      = Node.packLeaves (maxLeafItems sz v.leafCap) v.root.leafNodes :=
    Node.collectLeafNodes_true sz v.leafCap v.root
  obtain ⟨_, _, hlf⟩ := Node.buildBottomsUp_clog
    (Node.packLeaves (maxLeafItems sz v.leafCap) v.root.leafNodes)
    (Node.packLeaves_wf _ _)
  have hne : Node.packLeaves (maxLeafItems sz v.leafCap) v.root.leafNodes ≠ [] :=
    Node.packLeaves_ne_nil _ _ (Node.leafNodes_ne_nil v.root)
  have hleafnodes : (Vector.rebalance sz v true).root.leafNodes
      = Node.packLeaves (maxLeafItems sz v.leafCap) v.root.leafNodes := by
    rw [hroot, hcol, hlf hne, packLeaves_leafNodes_flatten]
  have hleaves : (Vector.rebalance sz v true).root.leaves
      = (Node.packLeaves (maxLeafItems sz v.leafCap) v.root.leafNodes).map
          Node.zdata := by
    rw [Node.leaves_eq_leafNodes_zdata, hleafnodes]
  rw [hleaves]
  refine Node.packLeaves_sizes (maxLeafItems sz v.leafCap) v.root.leafNodes ?_
  intro m hm
  have : m.zdata ∈ v.root.leaves := by
    rw [Node.leaves_eq_leafNodes_zdata]
    exact List.mem_map_of_mem Node.zdata hm
  exact hle m.zdata this

theorem C9_witness :
    (∀ b ∈ (Node.M 1 (Node.Z [4]) (Node.Z [8]) : Node Nat).leaves,
      b.length ≤ maxLeafItems 8 16) ∧
    (Vector.rebalance 8 (⟨2, Node.M 1 (Node.Z [4]) (Node.Z [8]), true, 16⟩ :
        Vector Nat) true).toList
      = (⟨2, Node.M 1 (Node.Z [4]) (Node.Z [8]), true, 16⟩ : Vector Nat).toList :=
  ⟨by decide,
    (C9_rebalance_preserves 8
      (⟨2, Node.M 1 (Node.Z [4]) (Node.Z [8]), true, 16⟩ : Vector Nat) true).1⟩

/-- Claim C10 (atomicity on error): every mutating positional operation
validates the offset before touching `len` or `root`, so on an `IndexFail`
outcome the state-passing embedding returns the argument vector itself,
bitwise unchanged.  `Vector::get` takes `&self` and cannot mutate by its
borrow type; its error outcome is included. -/
theorem C10_atomic_on_error {α : Type} (sz : Nat) (v : Vector α) (off : Nat) (x : α) :
    (v.len < off → Vector.insert sz v off x = (v, .error .indexFail)) ∧
    (v.len < off → Vector.insertMut sz v off x = (v, .error .indexFail)) ∧
    (v.len ≤ off → Vector.update v off x = (v, .error .indexFail)) ∧
    (v.len ≤ off → Vector.updateMut v off x = (v, .error .indexFail)) ∧
    (v.len ≤ off → Vector.remove v off = (v, .error .indexFail)) ∧
    (v.len ≤ off → Vector.removeMut v off = (v, .error .indexFail)) ∧
    (v.len < off → v.splitOff off = (v, .error .indexFail)) ∧
    (v.len ≤ off → v.get off = .error .indexFail) := by
  refine ⟨Vector.insert_err sz v off x, Vector.insertMut_err sz v off x,
    Vector.update_err v off x, ?_, Vector.remove_err v off, ?_,
    Vector.splitOff_err v off, ?_⟩
  · intro h
    rw [Vector.updateMut_is_update]
    exact Vector.update_err v off x h
  · intro h
    rw [Vector.removeMut_is_remove]
    exact Vector.remove_err v off h
  · intro h
    rw [Vector.get, if_neg (by omega)]

theorem C10_witness :
    (⟨1, Node.Z [5], true, 16⟩ : Vector Nat).len < 9 ∧
    Vector.insert 8 (⟨1, Node.Z [5], true, 16⟩ : Vector Nat) 9 7
      = ((⟨1, Node.Z [5], true, 16⟩ : Vector Nat), .error .indexFail) :=
  ⟨by decide,
    (C10_atomic_on_error 8 (⟨1, Node.Z [5], true, 16⟩ : Vector Nat) 9 7).1 (by decide)⟩

end Ppar